import Mathlib

/-!
Verification of the event-driven engine in `ignite/engines/engine.py`.

The Python module defines an `Events` enum, a `State` object built from
keyword arguments, and an `Engine` that runs a process function over a
dataset for a number of epochs while firing lifecycle events.  This file
gives a shallow embedding of that module and proves the specified
properties about it.

Modelling conventions:
- Python exceptions are modelled by the `PyError` record (type name and
  message); raising is modelled with `Option PyError` / `Except PyError`
  results.  A `raise e` re-raises the identical value.
- `self.state` is threaded explicitly through the loop functions and
  returned by `Engine.run`; the engine record keeps the handler table and
  the `should_terminate` flag, which persist across `run` calls.
- Handlers receive the engine handle in Python; here a handler function
  receives the current run state (its observable part), the positional
  arguments and the keyword arguments, and yields an effect: return
  normally (possibly having called `terminate()`) or raise an error.
- Every call to `_fire_event` is recorded in a trace: a `fire` entry for
  the dispatch point itself (with the current iteration and epoch) and a
  `call` entry for each handler invocation with its argument list.
- `hours, mins, secs = self._run_once_on_dataset()` unpacks the return
  value; when `_run_once_on_dataset` has swallowed an exception it falls
  off its end and returns Python `None`, so the assignment raises a
  `TypeError`, which the surrounding `try` in `run` catches again.  The
  embedding models this faithfully (`RunOnceOutcome.noneReturn` and
  `unpackNoneError`).
-/

namespace Ignite

/-- Events enum from the source, in source order. -/
inductive Events
  | EPOCH_STARTED
  | EPOCH_COMPLETED
  | STARTED
  | COMPLETED
  | ITERATION_STARTED
  | ITERATION_COMPLETED
  | EXCEPTION_RAISED
deriving DecidableEq, BEq, Repr

/-- Python exception value: class name and message. -/
structure PyError where
  ty : String
  msg : String
deriving DecidableEq, BEq, Repr

/-- Plain Python values used as batches, handler arguments and outputs. -/
inductive Val
  | vint (n : Int)
  | vstr (s : String)
  | verr (e : PyError)
  | vnone
deriving DecidableEq, BEq, Repr

/-- Argument passed as `event_name` to `add_event_handler`: either one of
the seven `Events` members or any other Python value. -/
inductive EventName
  | tag (e : Events)
  | other (v : Val)
deriving DecidableEq, BEq, Repr

/-- Check `event_name not in Events.__members__.values()` from the source:
only the seven enum members are valid. -/
def EventName.isValidEvent : EventName → Bool
  | .tag _ => true
  | .other _ => false

/-- Python str() of an Events member, as used by string formatting. -/
def Events.pyStr : Events → String
  | .EPOCH_STARTED => ("Events.EPOCH_STARTED")
  | .EPOCH_COMPLETED => ("Events.EPOCH_COMPLETED")
  | .STARTED => ("Events.STARTED")
  | .COMPLETED => ("Events.COMPLETED")
  | .ITERATION_STARTED => ("Events.ITERATION_STARTED")
  | .ITERATION_COMPLETED => ("Events.ITERATION_COMPLETED")
  | .EXCEPTION_RAISED => ("Events.EXCEPTION_RAISED")

/-- Python str() of a value, as used by string formatting. -/
def Val.pyStr : Val → String
  | .vint n => toString n
  | .vstr s => s
  | .verr e => e.msg
  | .vnone => ("None")

/-- Python str() of an `event_name` argument. -/
def EventName.pyStr : EventName → String
  | .tag e => e.pyStr
  | .other v => v.pyStr

/-- Run state of one `run` call: the attributes that `Engine.run` and the
loop code read and write on `self.state`. -/
structure RState where
  iteration : Nat
  epoch : Nat
  max_epochs : Nat
  batch : Val
  output : Val
  dataloader : List Val
  metrics : List (String × Val)
deriving Repr

/-- Effect of one handler invocation: return normally, having called
`engine.terminate()` iff the flag is true, or raise an error. -/
inductive HEffect
  | ok (calledTerminate : Bool)
  | raiseErr (e : PyError)
deriving Repr

/-- Behaviour of a handler callable: it observes the current run state and
receives the positional and keyword arguments. -/
abbrev HandlerFun := RState → List Val → List (String × Val) → HEffect

/-- One handler registration: the callable (with an identity used in the
trace) plus the stored extra positional and keyword arguments. -/
structure Reg where
  hid : Nat
  fn : HandlerFun
  args : List Val
  kwargs : List (String × Val)

/-- The `_event_handlers` dict: insertion-ordered association list from
event names to registration lists. -/
abbrev Dict := List (EventName × List Reg)

/-- Engine record: handler table and termination flag (the parts that
survive across `run` calls; `self.state` is threaded explicitly). -/
structure Engine where
  event_handlers : Dict
  should_terminate : Bool

/-- Process function: receives the engine handle (observable run state)
and the batch, returns an output or raises. -/
abbrev ProcFn := RState → Val → Except PyError Val

/-- Trace of observable actions: a `fire` entry per `_fire_event` call
(recording the state counters at dispatch time) and a `call` entry per
handler invocation with the positional arguments after the engine handle
and the keyword arguments. -/
inductive TraceEntry
  | fire (ev : Events) (iteration : Nat) (epoch : Nat)
  | call (ev : Events) (hid : Nat) (args : List Val) (kwargs : List (String × Val))
deriving DecidableEq, BEq, Repr

/-- Dict lookup, first matching key. -/
def dictLookup : Dict → EventName → Option (List Reg)
  | [], _ => none
  | (k, l) :: rest, en => if k = en then some l else dictLookup rest en

/-- Key membership test, `event_name in self._event_handlers`. -/
def containsKey (d : Dict) (en : EventName) : Bool :=
  (dictLookup d en).isSome

/-- Create the key with an empty list when absent and append the
registration to the list of that key, as `add_event_handler` does. -/
def dictAdd : Dict → EventName → Reg → Dict
  | [], en, r => [(en, [r])]
  | (k, l) :: rest, en, r =>
    if k = en then (k, l ++ [r]) :: rest else (k, l) :: dictAdd rest en r

/-- Error from registering against an invalid event name. -/
def invalidEventError (en : EventName) : PyError :=
  ⟨("ValueError"), ("Event ") ++ en.pyStr ++ (" is not a valid event for this Engine")⟩

/-- Engine.add_event_handler: validate the event name, then insert the
registration; raises ValueError for an invalid event. -/
def add_event_handler (eng : Engine) (en : EventName) (r : Reg) :
    Except PyError Engine :=
  if en.isValidEvent then
    Except.ok { eng with event_handlers := dictAdd eng.event_handlers en r }
  else
    Except.error (invalidEventError en)

/-- The handler table the caller sees after an `add_event_handler` call,
whether it returned or raised. -/
def tableAfter (eng : Engine) (en : EventName) (r : Reg) : Dict :=
  match add_event_handler eng en r with
  | .ok eng2 => eng2.event_handlers
  | .error _ => eng.event_handlers

/-- Engine.terminate: set the `should_terminate` flag. -/
def Engine.terminate (eng : Engine) : Engine :=
  { eng with should_terminate := true }

/-- Loop of `_fire_event` over the registrations of one event: invoke each
handler in order with the event arguments followed by its stored extra
arguments; a raised error stops the loop and propagates. -/
def fireList (st : RState) (ev : Events) (eargs : List Val) :
    Engine → List Reg → Engine × List TraceEntry × Option PyError
  | eng, [] => (eng, [], none)
  | eng, r :: rs =>
    match r.fn st (eargs ++ r.args) r.kwargs with
    | .raiseErr e =>
      (eng, [TraceEntry.call ev r.hid (eargs ++ r.args) r.kwargs], some e)
    | .ok t =>
      ((fireList st ev eargs (if t then eng.terminate else eng) rs).1,
       TraceEntry.call ev r.hid (eargs ++ r.args) r.kwargs ::
         (fireList st ev eargs (if t then eng.terminate else eng) rs).2.1,
       (fireList st ev eargs (if t then eng.terminate else eng) rs).2.2)

/-- Engine._fire_event: when the event key is present, invoke its
registrations in order; otherwise do nothing.  The dispatch point itself
is always recorded in the trace. -/
def fire_event (eng : Engine) (st : RState) (ev : Events) (eargs : List Val) :
    Engine × List TraceEntry × Option PyError :=
  match dictLookup eng.event_handlers (.tag ev) with
  | none => (eng, [TraceEntry.fire ev st.iteration st.epoch], none)
  | some regs =>
    ((fireList st ev eargs eng regs).1,
     TraceEntry.fire ev st.iteration st.epoch ::
       (fireList st ev eargs eng regs).2.1,
     (fireList st ev eargs eng regs).2.2)

/-- Engine._handle_exception: fire EXCEPTION_RAISED with the error when a
registration key exists for it, otherwise re-raise the same error.  The
third component is the error propagating out, if any. -/
def handle_exception (eng : Engine) (st : RState) (e : PyError) :
    Engine × List TraceEntry × Option PyError :=
  if containsKey eng.event_handlers (.tag .EXCEPTION_RAISED) then
    fire_event eng st .EXCEPTION_RAISED [Val.verr e]
  else
    (eng, [], some e)

/-- Body of the `for batch in self.state.dataloader` loop in
`_run_once_on_dataset`: set the batch, bump the iteration counter, fire
ITERATION_STARTED, call the process function, store the output, fire
ITERATION_COMPLETED, and stop when `should_terminate` was set.  The error
component is any exception escaping the loop body. -/
def runOnceLoop (proc : ProcFn) :
    Engine → RState → List Val → Engine × RState × List TraceEntry × Option PyError
  | eng, st, [] => (eng, st, [], none)
  | eng, st, b :: bs =>
    match fire_event eng { st with batch := b, iteration := st.iteration + 1 }
        .ITERATION_STARTED [] with
    | (eng1, tr1, some e) =>
      (eng1, { st with batch := b, iteration := st.iteration + 1 }, tr1, some e)
    | (eng1, tr1, none) =>
      match proc { st with batch := b, iteration := st.iteration + 1 } b with
      | .error e =>
        (eng1, { st with batch := b, iteration := st.iteration + 1 }, tr1, some e)
      | .ok out =>
        match fire_event eng1
            { st with batch := b, iteration := st.iteration + 1, output := out }
            .ITERATION_COMPLETED [] with
        | (eng2, tr2, some e) =>
          (eng2, { st with batch := b, iteration := st.iteration + 1, output := out },
           tr1 ++ tr2, some e)
        | (eng2, tr2, none) =>
          if eng2.should_terminate then
            (eng2, { st with batch := b, iteration := st.iteration + 1, output := out },
             tr1 ++ tr2, none)
          else
            match runOnceLoop proc eng2
                { st with batch := b, iteration := st.iteration + 1, output := out }
                bs with
            | (eng3, st3, tr3, err) => (eng3, st3, tr1 ++ tr2 ++ tr3, err)

/-- Outcome of `_run_once_on_dataset`: it returned its timing tuple, it
swallowed an exception and fell off the end (returning Python None), or
an exception propagated out of it. -/
inductive RunOnceOutcome
  | timing
  | noneReturn
  | raised (e : PyError)
deriving Repr

/-- Engine._run_once_on_dataset: run one dataset pass; any exception is
caught and given to `_handle_exception`, after which the method returns
None instead of its timing tuple. -/
def run_once_on_dataset (proc : ProcFn) (eng : Engine) (st : RState) :
    Engine × RState × List TraceEntry × RunOnceOutcome :=
  match runOnceLoop proc eng st st.dataloader with
  | (eng1, st1, tr1, none) => (eng1, st1, tr1, .timing)
  | (eng1, st1, tr1, some e) =>
    match handle_exception eng1 st1 e with
    | (eng2, tr2, none) => (eng2, st1, tr1 ++ tr2, .noneReturn)
    | (eng2, tr2, some e2) => (eng2, st1, tr1 ++ tr2, .raised e2)

/-- TypeError raised by `hours, mins, secs = None` in `run` when
`_run_once_on_dataset` returned None after a swallowed exception. -/
def unpackNoneError : PyError :=
  ⟨("TypeError"), ("cannot unpack non-iterable NoneType object")⟩

/-- While loop of `Engine.run`: while `self.state.epoch < max_epochs` and
not `self.should_terminate`, bump the epoch, fire EPOCH_STARTED, run one
dataset pass, break on termination, otherwise fire EPOCH_COMPLETED.  The
error component is any exception propagating to the `try` in `run`.  The
fuel argument bounds the recursion; `run` passes `max_epochs`, which is
enough because every round increments `state.epoch`. -/
def epochLoop (proc : ProcFn) (maxE : Nat) :
    Nat → Engine → RState → Engine × RState × List TraceEntry × Option PyError
  | 0, eng, st => (eng, st, [], none)
  | fuel + 1, eng, st =>
    if st.epoch < maxE && !eng.should_terminate then
      match fire_event eng { st with epoch := st.epoch + 1 } .EPOCH_STARTED [] with
      | (eng1, tr1, some e) => (eng1, { st with epoch := st.epoch + 1 }, tr1, some e)
      | (eng1, tr1, none) =>
        match run_once_on_dataset proc eng1 { st with epoch := st.epoch + 1 } with
        | (eng2, st2, tr2, .raised e) => (eng2, st2, tr1 ++ tr2, some e)
        | (eng2, st2, tr2, .noneReturn) =>
          (eng2, st2, tr1 ++ tr2, some unpackNoneError)
        | (eng2, st2, tr2, .timing) =>
          if eng2.should_terminate then
            (eng2, st2, tr1 ++ tr2, none)
          else
            match fire_event eng2 st2 .EPOCH_COMPLETED [] with
            | (eng3, tr3, some e) => (eng3, st2, tr1 ++ tr2 ++ tr3, some e)
            | (eng3, tr3, none) =>
              match epochLoop proc maxE fuel eng3 st2 with
              | (eng4, st4, tr4, err) =>
                (eng4, st4, tr1 ++ tr2 ++ tr3 ++ tr4, err)
    else
      (eng, st, [], none)

/-- The fresh state `State(dataloader=data, epoch=0, max_epochs=max_epochs,
metrics={})` built at the start of `run`, with the constructor defaults
iteration=0, output=None, batch=None. -/
def initialState (data : List Val) (max_epochs : Nat) : RState :=
  { iteration := 0
    epoch := 0
    max_epochs := max_epochs
    batch := Val.vnone
    output := Val.vnone
    dataloader := data
    metrics := [] }

/-- Result of `Engine.run`: the engine afterwards, `self.state`, the trace
of dispatches, and the exception propagating to the caller when the run
raised (in which case Python returns nothing to the caller). -/
structure RunResult where
  engine : Engine
  state : RState
  trace : List TraceEntry
  raised : Option PyError

/-- Engine.run: build a fresh state, fire STARTED, run the epoch loop,
fire COMPLETED, and return the state; any exception inside the `try`
block goes through `_handle_exception`. -/
def Engine.run (eng : Engine) (data : List Val) (max_epochs : Nat)
    (proc : ProcFn) : RunResult :=
  match fire_event eng (initialState data max_epochs) .STARTED [] with
  | (eng1, tr1, some e) =>
    match handle_exception eng1 (initialState data max_epochs) e with
    | (eng2, tr2, out) => ⟨eng2, initialState data max_epochs, tr1 ++ tr2, out⟩
  | (eng1, tr1, none) =>
    match epochLoop proc max_epochs max_epochs eng1 (initialState data max_epochs) with
    | (eng2, st2, tr2, some e) =>
      match handle_exception eng2 st2 e with
      | (eng3, tr3, out) => ⟨eng3, st2, tr1 ++ tr2 ++ tr3, out⟩
    | (eng2, st2, tr2, none) =>
      match fire_event eng2 st2 .COMPLETED [] with
      | (eng3, tr3, some e) =>
        match handle_exception eng3 st2 e with
        | (eng4, tr4, out) => ⟨eng4, st2, tr1 ++ tr2 ++ tr3 ++ tr4, out⟩
      | (eng3, tr3, none) =>
        ⟨eng3, st2, tr1 ++ tr2 ++ tr3, none⟩

/-! ### The State constructor as an attribute map (State.__init__) -/

/-- Attribute values stored on a `State` object: plain values, lists
(the dataloader) and string-keyed dicts (the metrics). -/
inductive AttrVal
  | av (v : Val)
  | alist (l : List Val)
  | adict (l : List (String × Val))
deriving DecidableEq, BEq, Repr

/-- Python setattr on an attribute map. -/
def setattrFn (m : String → Option AttrVal) (k : String) (v : AttrVal) :
    String → Option AttrVal :=
  fun k2 => if k2 = k then some v else m k2

/-- Attributes set unconditionally at the start of `State.__init__`:
iteration = 0, output = None, batch = None. -/
def stateDefaults : String → Option AttrVal :=
  fun k =>
    if k = ("iteration") then some (.av (.vint 0))
    else if k = ("output") then some (.av .vnone)
    else if k = ("batch") then some (.av .vnone)
    else none

/-- State.__init__: start from the defaults, then `setattr(self, k, v)`
for every keyword argument in order. -/
def State.init (kwargs : List (String × AttrVal)) : String → Option AttrVal :=
  kwargs.foldl (fun m kv => setattrFn m kv.1 kv.2) stateDefaults

/-- Last binding of a key in a keyword-argument list (the one setattr
leaves in place). -/
def lookupLast : List (String × AttrVal) → String → Option AttrVal
  | [], _ => none
  | kv :: rest, k =>
    match lookupLast rest k with
    | some v => some v
    | none => if kv.1 = k then some kv.2 else none

/-- The keyword arguments `run` passes to the State constructor. -/
def runKwargs (data : List Val) (max_epochs : Nat) : List (String × AttrVal) :=
  [(("dataloader"), .alist data),
   (("epoch"), .av (.vint 0)),
   (("max_epochs"), .av (.vint max_epochs)),
   (("metrics"), .adict [])]

/-- Attribute view of the structured run state record. -/
def RState.toAttrs (st : RState) : String → Option AttrVal :=
  fun k =>
    if k = ("iteration") then some (.av (.vint st.iteration))
    else if k = ("output") then some (.av st.output)
    else if k = ("batch") then some (.av st.batch)
    else if k = ("dataloader") then some (.alist st.dataloader)
    else if k = ("epoch") then some (.av (.vint st.epoch))
    else if k = ("max_epochs") then some (.av (.vint st.max_epochs))
    else if k = ("metrics") then some (.adict st.metrics)
    else none

/-! ### Trace projections and handler-behaviour predicates -/

/-- Events at the dispatch points of a trace, in order. -/
def firedEvents (tr : List TraceEntry) : List Events :=
  tr.filterMap fun t =>
    match t with
    | .fire ev _ _ => some ev
    | .call _ _ _ _ => none

/-- Iteration counter values recorded at ITERATION_STARTED dispatches. -/
def iterStartFires (tr : List TraceEntry) : List Nat :=
  tr.filterMap fun t =>
    match t with
    | .fire .ITERATION_STARTED i _ => some i
    | _ => none

/-- Number of dispatches of one event in a trace. -/
def countFire (ev : Events) (tr : List TraceEntry) : Nat :=
  tr.countP fun t =>
    match t with
    | .fire e _ _ => decide (e = ev)
    | .call _ _ _ _ => false

/-- The call entries one dispatch of `ev` with arguments `eargs` makes for
a registration list. -/
def regCalls (ev : Events) (eargs : List Val) (regs : List Reg) :
    List TraceEntry :=
  regs.map fun r => TraceEntry.call ev r.hid (eargs ++ r.args) r.kwargs

/-- Registrations of one event (empty when the key is absent). -/
def regsAt (eng : Engine) (ev : Events) : List Reg :=
  (dictLookup eng.event_handlers (.tag ev)).getD []

/-- Key presence of EXCEPTION_RAISED, the test `_handle_exception` uses. -/
def hasExcKey (eng : Engine) : Bool :=
  containsKey eng.event_handlers (.tag .EXCEPTION_RAISED)

/-- Registrations that always return normally without calling terminate. -/
def RegsAllOkFalse (regs : List Reg) : Prop :=
  ∀ r ∈ regs, ∀ st a k, r.fn st a k = .ok false

/-- Registrations that never raise (they may call terminate). -/
def RegsNoRaise (regs : List Reg) : Prop :=
  ∀ r ∈ regs, ∀ st a k, ∃ b, r.fn st a k = .ok b

/-- Registrations that never call terminate (they may raise). -/
def RegsNoTerm (regs : List Reg) : Prop :=
  ∀ r ∈ regs, ∀ st a k, r.fn st a k ≠ .ok true

/-- Every registered handler of the engine returns normally without
calling terminate. -/
def EngineBenign (eng : Engine) : Prop :=
  ∀ en regs, dictLookup eng.event_handlers en = some regs → RegsAllOkFalse regs

/-- No registered handler of the engine ever raises. -/
def EngineNoRaise (eng : Engine) : Prop :=
  ∀ en regs, dictLookup eng.event_handlers en = some regs → RegsNoRaise regs

/-- No registered handler of the engine ever calls terminate. -/
def EngineNoTerm (eng : Engine) : Prop :=
  ∀ en regs, dictLookup eng.event_handlers en = some regs → RegsNoTerm regs

/-- Process function that never raises. -/
def ProcTotal (proc : ProcFn) : Prop :=
  ∀ st b, ∃ v, proc st b = .ok v

/-! ### Grammar of fired events inside one run body (claim C4) -/

/-- Shape of the iteration-level dispatches of one dataset pass: a list of
ITERATION_STARTED / ITERATION_COMPLETED pairs. -/
inductive IterPairs : List Events → Prop
  | nil : IterPairs []
  | cons {l : List Events} (h : IterPairs l) :
      IterPairs (.ITERATION_STARTED :: .ITERATION_COMPLETED :: l)

/-- Shape of the dispatches between STARTED and COMPLETED: a sequence of
fully completed epoch blocks `EPOCH_STARTED (IS IC)* EPOCH_COMPLETED`,
optionally ending in one terminated block `EPOCH_STARTED (IS IC)*` that
has no EPOCH_COMPLETED. -/
inductive EpochBody : List Events → Prop
  | nil : EpochBody []
  | done {its rest : List Events} (hits : IterPairs its) (hrest : EpochBody rest) :
      EpochBody (.EPOCH_STARTED :: its ++ .EPOCH_COMPLETED :: rest)
  | term {its : List Events} (hits : IterPairs its) :
      EpochBody (.EPOCH_STARTED :: its)

/-! ### Handler-table keys after registration sequences (claim C8) -/

/-- All keys of a handler table are valid event tags. -/
def ValidKeys (d : Dict) : Prop :=
  ∀ kv ∈ d, kv.1.isValidEvent = true

/-- Apply a sequence of `add_event_handler` calls; a raising call leaves
the engine as it was (the caller keeps its reference). -/
def applyAdds (eng : Engine) : List (EventName × Reg) → Engine
  | [] => eng
  | req :: rest =>
    match add_event_handler eng req.1 req.2 with
    | .ok eng2 => applyAdds eng2 rest
    | .error _ => applyAdds eng rest

/-! ### Concrete parametric scenarios used by the claims -/

/-- Process function failing with `e0` exactly at global iteration `k`
and otherwise returning `g st b`. -/
def procFailAt (k : Nat) (e0 : PyError) (g : RState → Val → Val) : ProcFn :=
  fun st b => if st.iteration = k then .error e0 else .ok (g st b)

/-- The error `ValueError("x")` from the specified scenario. -/
def valueErrorX : PyError := ⟨("ValueError"), ("x")⟩

/-- Handler that calls `engine.terminate()` exactly when the iteration
counter equals `k`. -/
def termAtReg (k : Nat) : Reg :=
  ⟨1, fun st _ _ => .ok (st.iteration == k), [], []⟩

/-- Engine whose only registration is `termAtReg k` on
ITERATION_COMPLETED, with the termination flag clear. -/
def termAtEngine (k : Nat) : Engine :=
  { event_handlers := [(.tag .ITERATION_COMPLETED, [termAtReg k])]
    should_terminate := false }

/-- Traces consisting only of handler-call entries. -/
def OnlyCalls (tr : List TraceEntry) : Prop :=
  ∀ t ∈ tr, ∀ ev i ep, t ≠ TraceEntry.fire ev i ep

/-- Epoch bounds on the fire entries of a trace. -/
def FiresLe (n : Nat) (tr : List TraceEntry) : Prop :=
  ∀ ev i ep, TraceEntry.fire ev i ep ∈ tr → ep ≤ n

/-- Handler that returns normally without calling terminate. -/
def regOkA : Reg := ⟨1, fun _ _ _ => HEffect.ok false, [], []⟩

/-- A sample error raised by a handler. -/
def errBoom : PyError := ⟨("RuntimeError"), ("boom")⟩

/-- Handler that raises `errBoom`. -/
def regRaiseB : Reg := ⟨2, fun _ _ _ => HEffect.raiseErr errBoom, [], []⟩

/-- Engine with the two registrations `regOkA` then `regRaiseB` on
ITERATION_STARTED. -/
def twoRegEngine : Engine :=
  { event_handlers := [(.tag .ITERATION_STARTED, [regOkA, regRaiseB])]
    should_terminate := false }

/-- The state of the first epoch pass: the fresh run state with the epoch
counter already bumped to 1. -/
def firstPassState (data : List Val) (max_epochs : Nat) : RState :=
  { initialState data max_epochs with epoch := 1 }

/-- Engine whose only registration is the benign handler `regOkA` on
EXCEPTION_RAISED. -/
def excOnlyEngine : Engine :=
  { event_handlers := [(.tag .EXCEPTION_RAISED, [regOkA])]
    should_terminate := false }

/-! ### Simp lemmas for the trace projections -/

@[simp]
theorem firedEvents_nil : firedEvents [] = [] := rfl

@[simp]
theorem firedEvents_cons_fire (ev : Events) (i ep : Nat) (tr : List TraceEntry) :
    firedEvents (.fire ev i ep :: tr) = ev :: firedEvents tr := rfl

@[simp]
theorem firedEvents_cons_call (ev : Events) (h : Nat) (a : List Val)
    (k : List (String × Val)) (tr : List TraceEntry) :
    firedEvents (.call ev h a k :: tr) = firedEvents tr := rfl

@[simp]
theorem firedEvents_append (a b : List TraceEntry) :
    firedEvents (a ++ b) = firedEvents a ++ firedEvents b :=
  List.filterMap_append a b _

@[simp]
theorem iterStartFires_nil : iterStartFires [] = [] := rfl

@[simp]
theorem iterStartFires_cons_IS (i ep : Nat) (tr : List TraceEntry) :
    iterStartFires (.fire .ITERATION_STARTED i ep :: tr) = i :: iterStartFires tr := rfl

theorem iterStartFires_cons_other {ev : Events} (hne : ev ≠ .ITERATION_STARTED)
    (i ep : Nat) (tr : List TraceEntry) :
    iterStartFires (.fire ev i ep :: tr) = iterStartFires tr := by
  cases ev
  all_goals first
    | rfl
    | exact absurd rfl hne

@[simp]
theorem iterStartFires_cons_call (ev : Events) (h : Nat) (a : List Val)
    (k : List (String × Val)) (tr : List TraceEntry) :
    iterStartFires (.call ev h a k :: tr) = iterStartFires tr := rfl

@[simp]
theorem iterStartFires_append (a b : List TraceEntry) :
    iterStartFires (a ++ b) = iterStartFires a ++ iterStartFires b :=
  List.filterMap_append a b _

@[simp]
theorem countFire_nil (ev : Events) : countFire ev [] = 0 := rfl

theorem countFire_cons_fire (ev e : Events) (i ep : Nat) (tr : List TraceEntry) :
    countFire ev (.fire e i ep :: tr) =
      countFire ev tr + (if e = ev then 1 else 0) := by
  simp only [countFire, List.countP_cons]
  by_cases h : e = ev
  · simp [h]
  · simp [h]

@[simp]
theorem countFire_cons_call (ev e : Events) (h : Nat) (a : List Val)
    (k : List (String × Val)) (tr : List TraceEntry) :
    countFire ev (.call e h a k :: tr) = countFire ev tr := by
  simp [countFire, List.countP_cons]

@[simp]
theorem countFire_append (ev : Events) (a b : List TraceEntry) :
    countFire ev (a ++ b) = countFire ev a + countFire ev b :=
  List.countP_append _ _ _

theorem OnlyCalls_nil : OnlyCalls [] := by
  intro t ht; cases ht

theorem OnlyCalls_regCalls (ev : Events) (eargs : List Val) (regs : List Reg) :
    OnlyCalls (regCalls ev eargs regs) := by
  intro t ht ev2 i ep
  simp only [regCalls, List.mem_map] at ht
  obtain ⟨r, _, rfl⟩ := ht
  intro h
  cases h

theorem OnlyCalls_append {a b : List TraceEntry} (ha : OnlyCalls a)
    (hb : OnlyCalls b) : OnlyCalls (a ++ b) := by
  intro t ht
  rcases List.mem_append.mp ht with h | h
  · exact ha t h
  · exact hb t h

theorem OnlyCalls_firedEvents {tr : List TraceEntry} (h : OnlyCalls tr) :
    firedEvents tr = [] := by
  induction tr with
  | nil => rfl
  | cons t rest ih =>
    cases t with
    | fire ev i ep => exact absurd rfl (h _ (List.mem_cons_self _ _) ev i ep)
    | call ev hid a k =>
      simp only [firedEvents_cons_call]
      exact ih fun t ht => h t (List.mem_cons_of_mem _ ht)

theorem OnlyCalls_iterStartFires {tr : List TraceEntry} (h : OnlyCalls tr) :
    iterStartFires tr = [] := by
  induction tr with
  | nil => rfl
  | cons t rest ih =>
    cases t with
    | fire ev i ep => exact absurd rfl (h _ (List.mem_cons_self _ _) ev i ep)
    | call ev hid a k =>
      simp only [iterStartFires_cons_call]
      exact ih fun t ht => h t (List.mem_cons_of_mem _ ht)

theorem OnlyCalls_countFire {tr : List TraceEntry} (h : OnlyCalls tr)
    (ev : Events) : countFire ev tr = 0 := by
  induction tr with
  | nil => rfl
  | cons t rest ih =>
    cases t with
    | fire e i ep => exact absurd rfl (h _ (List.mem_cons_self _ _) e i ep)
    | call e hid a k =>
      simp only [countFire_cons_call]
      exact ih fun t ht => h t (List.mem_cons_of_mem _ ht)

theorem OnlyCalls_no_fire_mem {tr : List TraceEntry} (h : OnlyCalls tr)
    {ev : Events} {i ep : Nat} (hm : TraceEntry.fire ev i ep ∈ tr) : False :=
  h _ hm ev i ep rfl

/-! ### Lemmas about the fire_event dispatch loop -/

theorem fireList_cons_raise {st : RState} {ev : Events} {eargs : List Val}
    {r : Reg} {rs : List Reg} {eng : Engine} {e : PyError}
    (hf : r.fn st (eargs ++ r.args) r.kwargs = .raiseErr e) :
    fireList st ev eargs eng (r :: rs) =
      (eng, [TraceEntry.call ev r.hid (eargs ++ r.args) r.kwargs], some e) := by
  simp [fireList, hf]

theorem fireList_cons_ok {st : RState} {ev : Events} {eargs : List Val}
    {r : Reg} {rs : List Reg} {eng : Engine} {t : Bool}
    (hf : r.fn st (eargs ++ r.args) r.kwargs = .ok t) :
    fireList st ev eargs eng (r :: rs) =
      ((fireList st ev eargs (if t then eng.terminate else eng) rs).1,
       TraceEntry.call ev r.hid (eargs ++ r.args) r.kwargs ::
         (fireList st ev eargs (if t then eng.terminate else eng) rs).2.1,
       (fireList st ev eargs (if t then eng.terminate else eng) rs).2.2) := by
  simp [fireList, hf]

theorem fireList_frame (st : RState) (ev : Events) (eargs : List Val) :
    ∀ (regs : List Reg) (eng : Engine),
      (fireList st ev eargs eng regs).1.event_handlers = eng.event_handlers ∧
      (eng.should_terminate = true →
        (fireList st ev eargs eng regs).1.should_terminate = true) ∧
      OnlyCalls (fireList st ev eargs eng regs).2.1
  | [], eng => ⟨rfl, fun h => h, OnlyCalls_nil⟩
  | r :: rs, eng => by
    cases hf : r.fn st (eargs ++ r.args) r.kwargs with
    | raiseErr e =>
      rw [fireList_cons_raise hf]
      refine ⟨rfl, fun h => h, ?_⟩
      intro t ht ev2 i ep
      rw [List.mem_singleton] at ht
      subst ht
      intro h
      cases h
    | ok t =>
      rw [fireList_cons_ok hf]
      have ih := fireList_frame st ev eargs rs (if t then eng.terminate else eng)
      refine ⟨?_, ?_, ?_⟩
      · rw [ih.1]
        cases t <;> rfl
      · intro h
        apply ih.2.1
        cases t <;> simp [Engine.terminate, h]
      · intro x hx ev2 i ep
        rcases List.mem_cons.mp hx with rfl | hx
        · intro h; cases h
        · exact ih.2.2 x hx ev2 i ep

theorem fireList_okFalse (st : RState) (ev : Events) (eargs : List Val) :
    ∀ (regs : List Reg) (eng : Engine),
      (∀ r ∈ regs, r.fn st (eargs ++ r.args) r.kwargs = .ok false) →
      fireList st ev eargs eng regs = (eng, regCalls ev eargs regs, none)
  | [], eng, _ => rfl
  | r :: rs, eng, h => by
    rw [fireList_cons_ok (h r (List.mem_cons_self _ _))]
    simp only [if_neg Bool.false_ne_true]
    rw [fireList_okFalse st ev eargs rs eng
      (fun q hq => h q (List.mem_cons_of_mem _ hq))]
    rfl

theorem fireList_noRaise (st : RState) (ev : Events) (eargs : List Val) :
    ∀ (regs : List Reg) (eng : Engine),
      (∀ r ∈ regs, ∃ b, r.fn st (eargs ++ r.args) r.kwargs = .ok b) →
      ∃ eng2, fireList st ev eargs eng regs = (eng2, regCalls ev eargs regs, none)
  | [], eng, _ => ⟨eng, rfl⟩
  | r :: rs, eng, h => by
    obtain ⟨b, hb⟩ := h r (List.mem_cons_self _ _)
    obtain ⟨eng2, h2⟩ := fireList_noRaise st ev eargs rs
      (if b then eng.terminate else eng)
      (fun q hq => h q (List.mem_cons_of_mem _ hq))
    refine ⟨eng2, ?_⟩
    rw [fireList_cons_ok hb, h2]
    rfl

theorem fireList_noTerm (st : RState) (ev : Events) (eargs : List Val) :
    ∀ (regs : List Reg) (eng : Engine),
      (∀ r ∈ regs, r.fn st (eargs ++ r.args) r.kwargs ≠ .ok true) →
      (fireList st ev eargs eng regs).1 = eng
  | [], eng, _ => rfl
  | r :: rs, eng, h => by
    cases hf : r.fn st (eargs ++ r.args) r.kwargs with
    | raiseErr e => rw [fireList_cons_raise hf]
    | ok t =>
      cases t with
      | true => exact absurd hf (h r (List.mem_cons_self _ _))
      | false =>
        rw [fireList_cons_ok hf]
        simp only [if_neg Bool.false_ne_true]
        exact fireList_noTerm st ev eargs rs eng
          (fun q hq => h q (List.mem_cons_of_mem _ hq))

theorem fireList_failFast (st : RState) (ev : Events) (eargs : List Val)
    (r : Reg) (post : List Reg) (e : PyError) :
    ∀ (pre : List Reg) (eng : Engine),
      (∀ q ∈ pre, ∃ b, q.fn st (eargs ++ q.args) q.kwargs = .ok b) →
      r.fn st (eargs ++ r.args) r.kwargs = .raiseErr e →
      ∃ eng2, fireList st ev eargs eng (pre ++ r :: post) =
        (eng2, regCalls ev eargs pre ++
          [TraceEntry.call ev r.hid (eargs ++ r.args) r.kwargs], some e)
  | [], eng, _, hr => by
    refine ⟨eng, ?_⟩
    rw [List.nil_append, fireList_cons_raise hr]
    rfl
  | q :: qs, eng, h, hr => by
    obtain ⟨b, hb⟩ := h q (List.mem_cons_self _ _)
    obtain ⟨eng2, h2⟩ := fireList_failFast st ev eargs r post e qs
      (if b then eng.terminate else eng)
      (fun p hp => h p (List.mem_cons_of_mem _ hp)) hr
    refine ⟨eng2, ?_⟩
    rw [List.cons_append, fireList_cons_ok hb, h2]
    simp [regCalls]

/-! ### Lemmas about fire_event -/

theorem regsAt_eq_of_lookup {eng : Engine} {ev : Events} {regs : List Reg}
    (h : dictLookup eng.event_handlers (.tag ev) = some regs) :
    regsAt eng ev = regs := by
  simp [regsAt, h]

theorem regsAt_eq_nil_of_lookup {eng : Engine} {ev : Events}
    (h : dictLookup eng.event_handlers (.tag ev) = none) :
    regsAt eng ev = [] := by
  simp [regsAt, h]

theorem fire_event_okFalse {eng : Engine} {st : RState} {ev : Events}
    {eargs : List Val}
    (h : ∀ r ∈ regsAt eng ev, r.fn st (eargs ++ r.args) r.kwargs = .ok false) :
    fire_event eng st ev eargs =
      (eng, TraceEntry.fire ev st.iteration st.epoch ::
        regCalls ev eargs (regsAt eng ev), none) := by
  cases hl : dictLookup eng.event_handlers (.tag ev) with
  | none =>
    rw [regsAt_eq_nil_of_lookup hl]
    simp [fire_event, hl, regCalls]
  | some regs =>
    rw [regsAt_eq_of_lookup hl] at h ⊢
    simp only [fire_event, hl]
    rw [fireList_okFalse st ev eargs regs eng h]

theorem fire_event_noRaise {eng : Engine} {st : RState} {ev : Events}
    {eargs : List Val}
    (h : ∀ r ∈ regsAt eng ev, ∃ b, r.fn st (eargs ++ r.args) r.kwargs = .ok b) :
    ∃ eng2, fire_event eng st ev eargs =
      (eng2, TraceEntry.fire ev st.iteration st.epoch ::
        regCalls ev eargs (regsAt eng ev), none) ∧
      eng2.event_handlers = eng.event_handlers ∧
      (eng.should_terminate = true → eng2.should_terminate = true) := by
  cases hl : dictLookup eng.event_handlers (.tag ev) with
  | none =>
    rw [regsAt_eq_nil_of_lookup hl]
    exact ⟨eng, by simp [fire_event, hl, regCalls], rfl, fun h2 => h2⟩
  | some regs =>
    rw [regsAt_eq_of_lookup hl] at h ⊢
    obtain ⟨eng2, h2⟩ := fireList_noRaise st ev eargs regs eng h
    have hfr := fireList_frame st ev eargs regs eng
    rw [h2] at hfr
    refine ⟨eng2, ?_, hfr.1, hfr.2.1⟩
    simp only [fire_event, hl]
    rw [h2]

theorem fire_event_shape (eng : Engine) (st : RState) (ev : Events)
    (eargs : List Val) :
    ∃ eng2 tl err, fire_event eng st ev eargs =
      (eng2, TraceEntry.fire ev st.iteration st.epoch :: tl, err) ∧
      OnlyCalls tl ∧
      eng2.event_handlers = eng.event_handlers ∧
      (eng.should_terminate = true → eng2.should_terminate = true) := by
  cases hl : dictLookup eng.event_handlers (.tag ev) with
  | none =>
    exact ⟨eng, [], none, by simp [fire_event, hl], OnlyCalls_nil, rfl, fun h => h⟩
  | some regs =>
    have hfr := fireList_frame st ev eargs regs eng
    exact ⟨(fireList st ev eargs eng regs).1, (fireList st ev eargs eng regs).2.1,
      (fireList st ev eargs eng regs).2.2, by simp [fire_event, hl], hfr.2.2,
      hfr.1, hfr.2.1⟩

theorem fire_event_noTerm {eng : Engine} {st : RState} {ev : Events}
    {eargs : List Val}
    (h : ∀ r ∈ regsAt eng ev, r.fn st (eargs ++ r.args) r.kwargs ≠ .ok true) :
    (fire_event eng st ev eargs).1 = eng := by
  cases hl : dictLookup eng.event_handlers (.tag ev) with
  | none => simp [fire_event, hl]
  | some regs =>
    rw [regsAt_eq_of_lookup hl] at h
    simp only [fire_event, hl]
    exact fireList_noTerm st ev eargs regs eng h

/-! ### Lemmas about handle_exception -/

theorem handle_exception_noKey {eng : Engine} {st : RState} {e : PyError}
    (h : hasExcKey eng = false) :
    handle_exception eng st e = (eng, [], some e) := by
  simp [handle_exception, hasExcKey] at h ⊢
  simp [h]

theorem handle_exception_key {eng : Engine} {st : RState} {e : PyError}
    (h : hasExcKey eng = true) :
    handle_exception eng st e = fire_event eng st .EXCEPTION_RAISED [Val.verr e] := by
  simp [handle_exception, hasExcKey] at h ⊢
  simp [h]

theorem handle_exception_frame (eng : Engine) (st : RState) (e : PyError) :
    (handle_exception eng st e).1.event_handlers = eng.event_handlers ∧
    (eng.should_terminate = true →
      (handle_exception eng st e).1.should_terminate = true) ∧
    iterStartFires (handle_exception eng st e).2.1 = [] ∧
    (∀ ev i ep, TraceEntry.fire ev i ep ∈ (handle_exception eng st e).2.1 →
      i = st.iteration ∧ ep = st.epoch) := by
  cases hk : hasExcKey eng with
  | false =>
    rw [handle_exception_noKey hk]
    exact ⟨rfl, fun h => h, rfl, fun ev i ep h => absurd h (List.not_mem_nil _)⟩
  | true =>
    rw [handle_exception_key hk]
    obtain ⟨eng2, tl, err, heq, hoc, hh, hflag⟩ :=
      fire_event_shape eng st .EXCEPTION_RAISED [Val.verr e]
    rw [heq]
    refine ⟨hh, hflag, ?_, ?_⟩
    · rw [iterStartFires_cons_other (by intro h; cases h),
        OnlyCalls_iterStartFires hoc]
    · intro ev i ep hm
      rcases List.mem_cons.mp hm with heq2 | hm2
      · cases heq2; exact ⟨rfl, rfl⟩
      · exact absurd hm2 (fun h2 => OnlyCalls_no_fire_mem hoc h2)

/-! ### General facts about one dataset pass (no hypotheses on handlers) -/

theorem range1_append (s m n : Nat) :
    List.range' s m ++ List.range' (s + m) n = List.range' s (m + n) := by
  have h := List.range'_append s m n 1
  simp only [one_mul, Nat.mul_one] at h
  rw [Nat.add_comm n m] at h
  simpa using h

/-- One dataset pass, whatever the handlers and the process function do:
the iteration counter advances by the number of processed batches, the
ITERATION_STARTED dispatches record exactly the consecutive counter
values, the epoch, max_epochs and dataloader fields are untouched, the
handler table is untouched, the termination flag is never cleared, and
every dispatch in the pass records the current epoch. -/
theorem runOnceLoop_gen (proc : ProcFn) :
    ∀ (bs : List Val) (eng : Engine) (st : RState),
      ∃ m,
        (runOnceLoop proc eng st bs).2.1.iteration = st.iteration + m ∧
        iterStartFires (runOnceLoop proc eng st bs).2.2.1 =
          List.range' (st.iteration + 1) m ∧
        (runOnceLoop proc eng st bs).2.1.epoch = st.epoch ∧
        (runOnceLoop proc eng st bs).2.1.max_epochs = st.max_epochs ∧
        (runOnceLoop proc eng st bs).2.1.dataloader = st.dataloader ∧
        (runOnceLoop proc eng st bs).1.event_handlers = eng.event_handlers ∧
        (eng.should_terminate = true →
          (runOnceLoop proc eng st bs).1.should_terminate = true) ∧
        (∀ ev i ep, TraceEntry.fire ev i ep ∈ (runOnceLoop proc eng st bs).2.2.1 →
          ep = st.epoch)
  | [], eng, st =>
    ⟨0, rfl, rfl, rfl, rfl, rfl, rfl, fun h => h,
      fun ev i ep h => absurd h (List.not_mem_nil _)⟩
  | b :: bs, eng, st => by
    obtain ⟨engA, tlA, errA, heqA, hocA, hhA, hflA⟩ :=
      fire_event_shape eng { st with batch := b, iteration := st.iteration + 1 }
        .ITERATION_STARTED []
    cases errA with
    | some e =>
      refine ⟨1, ?_⟩
      simp only [runOnceLoop, heqA]
      refine ⟨by trivial, ?_, by trivial, by trivial, by trivial, hhA, hflA, ?_⟩
      · simp [OnlyCalls_iterStartFires hocA]
      · intro ev i ep hm
        rcases List.mem_cons.mp hm with heq2 | hm2
        · cases heq2; rfl
        · exact absurd hm2 (fun h2 => OnlyCalls_no_fire_mem hocA h2)
    | none =>
      cases hp : proc { st with batch := b, iteration := st.iteration + 1 } b with
      | error e =>
        refine ⟨1, ?_⟩
        simp only [runOnceLoop, heqA, hp]
        refine ⟨by trivial, ?_, by trivial, by trivial, by trivial, hhA, hflA, ?_⟩
        · simp [OnlyCalls_iterStartFires hocA]
        · intro ev i ep hm
          rcases List.mem_cons.mp hm with heq2 | hm2
          · cases heq2; rfl
          · exact absurd hm2 (fun h2 => OnlyCalls_no_fire_mem hocA h2)
      | ok out =>
        obtain ⟨engB, tlB, errB, heqB, hocB, hhB, hflB⟩ :=
          fire_event_shape engA
            { st with batch := b, iteration := st.iteration + 1, output := out }
            .ITERATION_COMPLETED []
        cases errB with
        | some e =>
          refine ⟨1, ?_⟩
          simp only [runOnceLoop, heqA, hp, heqB]
          refine ⟨by trivial, ?_, by trivial, by trivial, by trivial, hhB.trans hhA,
            fun h => hflB (hflA h), ?_⟩
          · simp [OnlyCalls_iterStartFires hocA, OnlyCalls_iterStartFires hocB,
              iterStartFires_cons_other (show Events.ITERATION_COMPLETED ≠
                Events.ITERATION_STARTED by intro h; cases h)]
          · intro ev i ep hm
            rcases List.mem_append.mp hm with hm1 | hm2
            · rcases List.mem_cons.mp hm1 with heq2 | hm3
              · cases heq2; rfl
              · exact absurd hm3 (fun h2 => OnlyCalls_no_fire_mem hocA h2)
            · rcases List.mem_cons.mp hm2 with heq2 | hm3
              · cases heq2; rfl
              · exact absurd hm3 (fun h2 => OnlyCalls_no_fire_mem hocB h2)
        | none =>
          cases hterm : engB.should_terminate with
          | true =>
            refine ⟨1, ?_⟩
            simp only [runOnceLoop, heqA, hp, heqB, hterm]
            refine ⟨by trivial, ?_, by trivial, by trivial, by trivial, hhB.trans hhA,
              fun _ => hterm, ?_⟩
            · simp [OnlyCalls_iterStartFires hocA, OnlyCalls_iterStartFires hocB,
                iterStartFires_cons_other (show Events.ITERATION_COMPLETED ≠
                  Events.ITERATION_STARTED by intro h; cases h)]
            · intro ev i ep hm
              rcases List.mem_append.mp hm with hm1 | hm2
              · rcases List.mem_cons.mp hm1 with heq2 | hm3
                · cases heq2; rfl
                · exact absurd hm3 (fun h2 => OnlyCalls_no_fire_mem hocA h2)
              · rcases List.mem_cons.mp hm2 with heq2 | hm3
                · cases heq2; rfl
                · exact absurd hm3 (fun h2 => OnlyCalls_no_fire_mem hocB h2)
          | false =>
            obtain ⟨m, hit, hisf, hep, hme, hdl, hhC, hflC, hfe⟩ :=
              runOnceLoop_gen proc bs engB
                { st with batch := b, iteration := st.iteration + 1, output := out }
            refine ⟨m + 1, ?_⟩
            simp only [runOnceLoop, heqA, hp, heqB, hterm]
            cases hrec : runOnceLoop proc engB
                { st with batch := b, iteration := st.iteration + 1, output := out }
                bs with
            | mk eng3 rest =>
              obtain ⟨st3, tr3, err3⟩ := rest
              rw [hrec] at hit hisf hep hme hdl hhC hflC hfe
              refine ⟨?_, ?_, hep, hme, hdl, hhC.trans (hhB.trans hhA), ?_, ?_⟩
              · simp only at hit
                simp [hit]
                omega
              · simp only at hisf
                simp [OnlyCalls_iterStartFires hocA, OnlyCalls_iterStartFires hocB,
                  iterStartFires_cons_other (show Events.ITERATION_COMPLETED ≠
                    Events.ITERATION_STARTED by intro h; cases h), hisf]
                have hr := range1_append (st.iteration + 1) 1 m
                simp only [List.range'_one] at hr
                rw [Nat.add_comm 1 m] at hr
                simpa using hr
              · intro h
                exact absurd (hflB (hflA h)) (by rw [hterm]; intro h2; cases h2)
              · intro ev i ep hm
                rcases List.mem_append.mp hm with hm1 | hm2
                · rcases List.mem_append.mp hm1 with hm3 | hm4
                  · rcases List.mem_cons.mp hm3 with heq2 | hm5
                    · cases heq2; rfl
                    · exact absurd hm5 (fun h2 => OnlyCalls_no_fire_mem hocA h2)
                  · rcases List.mem_cons.mp hm4 with heq2 | hm5
                    · cases heq2; rfl
                    · exact absurd hm5 (fun h2 => OnlyCalls_no_fire_mem hocB h2)
                · exact hfe ev i ep hm2

/-- General facts about `_run_once_on_dataset`, composing the pass with
the possible exception handling at its boundary. -/
theorem run_once_gen (proc : ProcFn) (eng : Engine) (st : RState) :
    ∃ m,
      (run_once_on_dataset proc eng st).2.1.iteration = st.iteration + m ∧
      iterStartFires (run_once_on_dataset proc eng st).2.2.1 =
        List.range' (st.iteration + 1) m ∧
      (run_once_on_dataset proc eng st).2.1.epoch = st.epoch ∧
      (run_once_on_dataset proc eng st).2.1.max_epochs = st.max_epochs ∧
      (run_once_on_dataset proc eng st).2.1.dataloader = st.dataloader ∧
      (run_once_on_dataset proc eng st).1.event_handlers = eng.event_handlers ∧
      (eng.should_terminate = true →
        (run_once_on_dataset proc eng st).1.should_terminate = true) ∧
      (∀ ev i ep, TraceEntry.fire ev i ep ∈ (run_once_on_dataset proc eng st).2.2.1 →
        ep = st.epoch) := by
  obtain ⟨m, hit, hisf, hep, hme, hdl, hh, hfl, hfe⟩ :=
    runOnceLoop_gen proc st.dataloader eng st
  cases hrec : runOnceLoop proc eng st st.dataloader with
  | mk eng1 rest =>
    obtain ⟨st1, tr1, err1⟩ := rest
    rw [hrec] at hit hisf hep hme hdl hh hfl hfe
    simp only at hit hisf hep hme hdl hh hfl hfe
    cases err1 with
    | none =>
      refine ⟨m, ?_⟩
      simp only [run_once_on_dataset, hrec]
      exact ⟨hit, hisf, hep, hme, hdl, hh, hfl, hfe⟩
    | some e =>
      have hx := handle_exception_frame eng1 st1 e
      cases hhx : handle_exception eng1 st1 e with
      | mk eng2 rest2 =>
        obtain ⟨tr2, out2⟩ := rest2
        rw [hhx] at hx
        simp only at hx
        refine ⟨m, ?_⟩
        cases out2 with
        | none =>
          simp only [run_once_on_dataset, hrec, hhx]
          refine ⟨hit, ?_, hep, hme, hdl, hx.1.trans hh,
            fun h => hx.2.1 (hfl h), ?_⟩
          · simp [hisf, hx.2.2.1]
          · intro ev i ep hm
            rcases List.mem_append.mp hm with hm1 | hm2
            · exact hfe ev i ep hm1
            · exact (hx.2.2.2 ev i ep hm2).2.trans hep
        | some e2 =>
          simp only [run_once_on_dataset, hrec, hhx]
          refine ⟨hit, ?_, hep, hme, hdl, hx.1.trans hh,
            fun h => hx.2.1 (hfl h), ?_⟩
          · simp [hisf, hx.2.2.1]
          · intro ev i ep hm
            rcases List.mem_append.mp hm with hm1 | hm2
            · exact hfe ev i ep hm1
            · exact (hx.2.2.2 ev i ep hm2).2.trans hep

theorem FiresLe_nil (n : Nat) : FiresLe n [] :=
  fun _ _ _ h => absurd h (List.not_mem_nil _)

theorem FiresLe_append {n : Nat} {a b : List TraceEntry} (ha : FiresLe n a)
    (hb : FiresLe n b) : FiresLe n (a ++ b) := by
  intro ev i ep hm
  rcases List.mem_append.mp hm with h | h
  · exact ha ev i ep h
  · exact hb ev i ep h

theorem FiresLe_cons_fire {n ep0 : Nat} {ev0 : Events} {i0 : Nat}
    {tr : List TraceEntry} (h0 : ep0 ≤ n) (h : FiresLe n tr) :
    FiresLe n (TraceEntry.fire ev0 i0 ep0 :: tr) := by
  intro ev i ep hm
  rcases List.mem_cons.mp hm with heq | hm2
  · cases heq; exact h0
  · exact h ev i ep hm2

theorem FiresLe_of_OnlyCalls {n : Nat} {tr : List TraceEntry}
    (h : OnlyCalls tr) : FiresLe n tr :=
  fun ev i ep hm => absurd rfl (h _ hm ev i ep)

theorem FiresLe_of_eq {c n : Nat} {tr : List TraceEntry}
    (h : ∀ ev i ep, TraceEntry.fire ev i ep ∈ tr → ep = c) (hc : c ≤ n) :
    FiresLe n tr :=
  fun ev i ep hm => le_of_eq_of_le (h ev i ep hm) hc

/-- General facts about the epoch loop: iteration values at
ITERATION_STARTED dispatches are consecutive, the epoch never exceeds the
`max_epochs` bound of the loop guard, every dispatch records an epoch
within the bound, the handler table is untouched and the termination flag
is never cleared. -/
theorem epochLoop_gen (proc : ProcFn) (maxE : Nat) :
    ∀ (fuel : Nat) (eng : Engine) (st : RState),
      ∃ m,
        (epochLoop proc maxE fuel eng st).2.1.iteration = st.iteration + m ∧
        iterStartFires (epochLoop proc maxE fuel eng st).2.2.1 =
          List.range' (st.iteration + 1) m ∧
        (st.epoch ≤ maxE → (epochLoop proc maxE fuel eng st).2.1.epoch ≤ maxE) ∧
        (epochLoop proc maxE fuel eng st).2.1.max_epochs = st.max_epochs ∧
        (epochLoop proc maxE fuel eng st).2.1.dataloader = st.dataloader ∧
        (epochLoop proc maxE fuel eng st).1.event_handlers = eng.event_handlers ∧
        (eng.should_terminate = true →
          (epochLoop proc maxE fuel eng st).1.should_terminate = true) ∧
        (st.epoch ≤ maxE → FiresLe maxE (epochLoop proc maxE fuel eng st).2.2.1)
  | 0, eng, st =>
    ⟨0, rfl, rfl, fun h => h, rfl, rfl, rfl, fun h => h, fun _ => FiresLe_nil maxE⟩
  | fuel + 1, eng, st => by
    cases hg : (decide (st.epoch < maxE) && !eng.should_terminate) with
    | false =>
      refine ⟨0, ?_⟩
      simp only [epochLoop, hg, Bool.false_eq_true, if_false]
      exact ⟨by trivial, by trivial, fun h => h, by trivial, by trivial,
        by trivial, fun h => h, fun _ => FiresLe_nil maxE⟩
    | true =>
      have hlt : st.epoch < maxE := by
        have h2 := hg
        simp only [Bool.and_eq_true, decide_eq_true_eq] at h2
        exact h2.1
      obtain ⟨engA, tlA, errA, heqA, hocA, hhA, hflA⟩ :=
        fire_event_shape eng { st with epoch := st.epoch + 1 } .EPOCH_STARTED []
      have hISneES : Events.EPOCH_STARTED ≠ Events.ITERATION_STARTED := by
        intro h; cases h
      have hECneIS : Events.EPOCH_COMPLETED ≠ Events.ITERATION_STARTED := by
        intro h; cases h
      cases errA with
      | some e =>
        refine ⟨0, ?_⟩
        simp only [epochLoop, hg, if_true, heqA]
        refine ⟨by trivial, ?_, fun _ => hlt, by trivial, by trivial, hhA, hflA,
          fun _ => ?_⟩
        · simp [iterStartFires_cons_other hISneES, OnlyCalls_iterStartFires hocA]
        · exact FiresLe_cons_fire hlt (FiresLe_of_OnlyCalls hocA)
      | none =>
        obtain ⟨m1, hit, hisf, hep, hme, hdl, hh, hfl, hfe⟩ :=
          run_once_gen proc engA { st with epoch := st.epoch + 1 }
        cases hrod : run_once_on_dataset proc engA { st with epoch := st.epoch + 1 } with
        | mk eng2 rest2 =>
          obtain ⟨st2, tr2, out2⟩ := rest2
          rw [hrod] at hit hisf hep hme hdl hh hfl hfe
          simp only at hit hisf hep hme hdl hh hfl hfe
          have hfle2 : FiresLe maxE tr2 := FiresLe_of_eq hfe (by omega)
          have hfleA : FiresLe maxE
              (TraceEntry.fire Events.EPOCH_STARTED st.iteration (st.epoch + 1) ::
                  tlA ++ tr2) :=
            FiresLe_cons_fire hlt (FiresLe_append (FiresLe_of_OnlyCalls hocA) hfle2)
          cases out2 with
          | raised e =>
            refine ⟨m1, ?_⟩
            simp only [epochLoop, hg, if_true, heqA, hrod]
            refine ⟨hit, ?_, fun _ => le_of_eq_of_le hep (by omega), hme, hdl,
              hh.trans hhA, fun h => hfl (hflA h), fun _ => ?_⟩
            · simp [iterStartFires_cons_other hISneES,
                OnlyCalls_iterStartFires hocA, hisf]
            · exact hfleA
          | noneReturn =>
            refine ⟨m1, ?_⟩
            simp only [epochLoop, hg, if_true, heqA, hrod]
            refine ⟨hit, ?_, fun _ => le_of_eq_of_le hep (by omega), hme, hdl,
              hh.trans hhA, fun h => hfl (hflA h), fun _ => ?_⟩
            · simp [iterStartFires_cons_other hISneES,
                OnlyCalls_iterStartFires hocA, hisf]
            · exact hfleA
          | timing =>
            cases hterm : eng2.should_terminate with
            | true =>
              refine ⟨m1, ?_⟩
              simp only [epochLoop, hg, if_true, heqA, hrod, hterm]
              refine ⟨hit, ?_, fun _ => le_of_eq_of_le hep (by omega), hme, hdl,
                hh.trans hhA, fun _ => trivial, fun _ => ?_⟩
              · simp [iterStartFires_cons_other hISneES,
                  OnlyCalls_iterStartFires hocA, hisf]
              · exact hfleA
            | false =>
              obtain ⟨engB, tlB, errB, heqB, hocB, hhB, hflB⟩ :=
                fire_event_shape eng2 st2 .EPOCH_COMPLETED []
              cases errB with
              | some e =>
                refine ⟨m1, ?_⟩
                simp only [epochLoop, hg, if_true, heqA, hrod, hterm,
                  Bool.false_eq_true, if_false, heqB]
                refine ⟨hit, ?_, fun _ => le_of_eq_of_le hep (by omega), hme, hdl,
                  hhB.trans (hh.trans hhA), fun h => hflB (hfl (hflA h)),
                  fun _ => ?_⟩
                · simp [iterStartFires_cons_other hISneES,
                    iterStartFires_cons_other hECneIS,
                    OnlyCalls_iterStartFires hocA, OnlyCalls_iterStartFires hocB,
                    hisf]
                · exact FiresLe_cons_fire hlt
                    (FiresLe_append (FiresLe_append (FiresLe_of_OnlyCalls hocA)
                        hfle2)
                      (FiresLe_cons_fire (show st2.epoch ≤ maxE by omega)
                        (FiresLe_of_OnlyCalls hocB)))
              | none =>
                obtain ⟨m2, ihit, ihisf, ihep, ihme, ihdl, ihh, ihfl, ihfe⟩ :=
                  epochLoop_gen proc maxE fuel engB st2
                cases hrec : epochLoop proc maxE fuel engB st2 with
                | mk eng4 rest4 =>
                  obtain ⟨st4, tr4, err4⟩ := rest4
                  rw [hrec] at ihit ihisf ihep ihme ihdl ihh ihfl ihfe
                  simp only at ihit ihisf ihep ihme ihdl ihh ihfl ihfe
                  have hep2le : st2.epoch ≤ maxE := by omega
                  refine ⟨m1 + m2, ?_⟩
                  simp only [epochLoop, hg, if_true, heqA, hrod, hterm,
                    Bool.false_eq_true, if_false, heqB, hrec]
                  refine ⟨?_, ?_, fun _ => ihep hep2le, ihme.trans hme,
                    ihdl.trans hdl, ihh.trans (hhB.trans (hh.trans hhA)),
                    fun h => ihfl (hflB (hfl (hflA h))), fun _ => ?_⟩
                  · rw [ihit, hit]; omega
                  · rw [hit] at ihisf
                    simp only [List.cons_append, List.append_assoc,
                      iterStartFires_append, iterStartFires_cons_other hISneES,
                      iterStartFires_cons_other hECneIS,
                      OnlyCalls_iterStartFires hocA, OnlyCalls_iterStartFires hocB,
                      List.nil_append, hisf, ihisf]
                    have hr := range1_append (st.iteration + 1) m1 m2
                    rw [show st.iteration + 1 + m1 = st.iteration + m1 + 1 from
                      by omega] at hr
                    exact hr
                  · exact FiresLe_cons_fire hlt
                      (FiresLe_append
                        (FiresLe_append
                          (FiresLe_append (FiresLe_of_OnlyCalls hocA) hfle2)
                          (FiresLe_cons_fire hep2le (FiresLe_of_OnlyCalls hocB)))
                        (ihfe hep2le))

/-- General facts about a whole run, with no assumptions on handlers or
the process function: the iteration counter equals the number of
ITERATION_STARTED dispatches and those dispatches record the consecutive
values 1, 2, ...; the final epoch and every recorded epoch stay within
`max_epochs`; `run` changes neither the handler table nor (downwards) the
termination flag. -/
theorem run_gen (eng : Engine) (data : List Val) (N : Nat) (proc : ProcFn) :
    ∃ m,
      (Engine.run eng data N proc).state.iteration = m ∧
      iterStartFires (Engine.run eng data N proc).trace = List.range' 1 m ∧
      (Engine.run eng data N proc).state.epoch ≤ N ∧
      FiresLe N (Engine.run eng data N proc).trace ∧
      (Engine.run eng data N proc).engine.event_handlers = eng.event_handlers ∧
      (eng.should_terminate = true →
        (Engine.run eng data N proc).engine.should_terminate = true) := by
  have hSneIS : Events.STARTED ≠ Events.ITERATION_STARTED := by
    intro h; cases h
  have hCneIS : Events.COMPLETED ≠ Events.ITERATION_STARTED := by
    intro h; cases h
  obtain ⟨engS, tlS, errS, heqS, hocS, hhS, hflS⟩ :=
    fire_event_shape eng (initialState data N) .STARTED []
  cases errS with
  | some e =>
    have hx := handle_exception_frame engS (initialState data N) e
    cases hhx : handle_exception engS (initialState data N) e with
    | mk eng2 rest2 =>
      obtain ⟨tr2, out2⟩ := rest2
      rw [hhx] at hx
      simp only at hx
      refine ⟨0, ?_⟩
      simp only [Engine.run, heqS, hhx]
      refine ⟨rfl, ?_, Nat.zero_le N, ?_, hx.1.trans hhS,
        fun h => hx.2.1 (hflS h)⟩
      · simp only [List.cons_append, iterStartFires_cons_other hSneIS,
          iterStartFires_append, OnlyCalls_iterStartFires hocS, hx.2.2.1,
          List.nil_append]
        rfl
      · exact FiresLe_cons_fire (Nat.zero_le N)
          (FiresLe_append (FiresLe_of_OnlyCalls hocS)
            (FiresLe_of_eq (fun ev i ep hm => (hx.2.2.2 ev i ep hm).2)
              (Nat.zero_le N)))
  | none =>
    obtain ⟨m, hit, hisf, hep, hme, hdl, hh, hfl, hfe⟩ :=
      epochLoop_gen proc N N engS (initialState data N)
    cases hl : epochLoop proc N N engS (initialState data N) with
    | mk eng2 rest2 =>
      obtain ⟨st2, tr2, err2⟩ := rest2
      rw [hl] at hit hisf hep hme hdl hh hfl hfe
      simp only at hit hisf hep hme hdl hh hfl hfe
      have hst0it : (initialState data N).iteration = 0 := rfl
      have hep2 : st2.epoch ≤ N := hep (Nat.zero_le N)
      have hfle2 : FiresLe N tr2 := hfe (Nat.zero_le N)
      cases err2 with
      | some e =>
        have hx := handle_exception_frame eng2 st2 e
        cases hhx : handle_exception eng2 st2 e with
        | mk eng3 rest3 =>
          obtain ⟨tr3, out3⟩ := rest3
          rw [hhx] at hx
          simp only at hx
          refine ⟨m, ?_⟩
          simp only [Engine.run, heqS, hl, hhx]
          refine ⟨by rw [hit, hst0it, Nat.zero_add], ?_, hep2, ?_,
            hx.1.trans (hh.trans hhS),
            fun h => hx.2.1 (hfl (hflS h))⟩
          · simp only [List.cons_append, List.append_assoc,
              iterStartFires_cons_other hSneIS, iterStartFires_append,
              OnlyCalls_iterStartFires hocS, hisf, hst0it, hx.2.2.1,
              Nat.zero_add, List.nil_append, List.append_nil]
          · exact FiresLe_cons_fire (Nat.zero_le N)
              (FiresLe_append
                (FiresLe_append (FiresLe_of_OnlyCalls hocS) hfle2)
                (FiresLe_of_eq (fun ev i ep hm => (hx.2.2.2 ev i ep hm).2) hep2))
      | none =>
        obtain ⟨engC, tlC, errC, heqC, hocC, hhC, hflC⟩ :=
          fire_event_shape eng2 st2 .COMPLETED []
        cases errC with
        | none =>
          refine ⟨m, ?_⟩
          simp only [Engine.run, heqS, hl, heqC]
          refine ⟨by rw [hit, hst0it, Nat.zero_add], ?_, hep2, ?_,
            hhC.trans (hh.trans hhS),
            fun h => hflC (hfl (hflS h))⟩
          · simp only [List.cons_append, List.append_assoc,
              iterStartFires_cons_other hSneIS, iterStartFires_append,
              OnlyCalls_iterStartFires hocS, hisf, hst0it,
              iterStartFires_cons_other hCneIS, OnlyCalls_iterStartFires hocC,
              Nat.zero_add, List.nil_append, List.append_nil]
          · exact FiresLe_cons_fire (Nat.zero_le N)
              (FiresLe_append
                (FiresLe_append (FiresLe_of_OnlyCalls hocS) hfle2)
                (FiresLe_cons_fire hep2 (FiresLe_of_OnlyCalls hocC)))
        | some e =>
          have hx := handle_exception_frame engC st2 e
          cases hhx : handle_exception engC st2 e with
          | mk eng3 rest3 =>
            obtain ⟨tr3, out3⟩ := rest3
            rw [hhx] at hx
            simp only at hx
            refine ⟨m, ?_⟩
            simp only [Engine.run, heqS, hl, heqC, hhx]
            refine ⟨by rw [hit, hst0it, Nat.zero_add], ?_, hep2, ?_,
              hx.1.trans (hhC.trans (hh.trans hhS)),
              fun h => hx.2.1 (hflC (hfl (hflS h)))⟩
            · simp only [List.cons_append, List.append_assoc,
                iterStartFires_cons_other hSneIS, iterStartFires_append,
                OnlyCalls_iterStartFires hocS, hisf, hst0it,
                iterStartFires_cons_other hCneIS, OnlyCalls_iterStartFires hocC,
                hx.2.2.1, Nat.zero_add, List.nil_append, List.append_nil]
            · exact FiresLe_cons_fire (Nat.zero_le N)
                (FiresLe_append
                  (FiresLe_append
                    (FiresLe_append (FiresLe_of_OnlyCalls hocS) hfle2)
                    (FiresLe_cons_fire hep2 (FiresLe_of_OnlyCalls hocC)))
                  (FiresLe_of_eq (fun ev i ep hm => (hx.2.2.2 ev i ep hm).2) hep2))

/-! ### Handler-table keys under registration -/

theorem dictAdd_validKeys {d : Dict} {en : EventName} {r : Reg}
    (hd : ValidKeys d) (hen : en.isValidEvent = true) :
    ValidKeys (dictAdd d en r) := by
  induction d with
  | nil =>
    intro kv hkv
    rcases List.mem_singleton.mp hkv with rfl
    exact hen
  | cons kl rest ih =>
    obtain ⟨k, l⟩ := kl
    by_cases hk : k = en
    · intro kv hkv
      simp only [dictAdd, if_pos hk] at hkv
      rcases List.mem_cons.mp hkv with rfl | hkv2
      · exact hd (k, l) (List.mem_cons_self _ _)
      · exact hd kv (List.mem_cons_of_mem _ hkv2)
    · intro kv hkv
      simp only [dictAdd, if_neg hk] at hkv
      rcases List.mem_cons.mp hkv with rfl | hkv2
      · exact hd (k, l) (List.mem_cons_self _ _)
      · exact ih (fun q hq => hd q (List.mem_cons_of_mem _ hq)) kv hkv2

theorem add_event_handler_validKeys {eng eng2 : Engine} {en : EventName} {r : Reg}
    (hok : add_event_handler eng en r = .ok eng2)
    (hd : ValidKeys eng.event_handlers) : ValidKeys eng2.event_handlers := by
  unfold add_event_handler at hok
  by_cases hv : en.isValidEvent = true
  · rw [if_pos hv] at hok
    cases hok
    exact dictAdd_validKeys hd hv
  · rw [if_neg hv] at hok
    cases hok

theorem applyAdds_validKeys :
    ∀ (reqs : List (EventName × Reg)) (eng : Engine),
      ValidKeys eng.event_handlers → ValidKeys (applyAdds eng reqs).event_handlers
  | [], _, hd => hd
  | req :: rest, eng, hd => by
    simp only [applyAdds]
    cases hok : add_event_handler eng req.1 req.2 with
    | ok eng2 =>
      exact applyAdds_validKeys rest eng2 (add_event_handler_validKeys hok hd)
    | error e => exact applyAdds_validKeys rest eng hd

/-! ### Runs with benign handlers and a total process function -/

theorem EngineBenign.pointwise {eng : Engine} (h : EngineBenign eng)
    (ev : Events) (st : RState) (eargs : List Val) :
    ∀ r ∈ regsAt eng ev, r.fn st (eargs ++ r.args) r.kwargs = .ok false := by
  intro r hr
  cases hl : dictLookup eng.event_handlers (.tag ev) with
  | none => rw [regsAt_eq_nil_of_lookup hl] at hr; cases hr
  | some regs =>
    rw [regsAt_eq_of_lookup hl] at hr
    exact h _ regs hl r hr st (eargs ++ r.args) r.kwargs

theorem fire_event_benign {eng : Engine} (h : EngineBenign eng) (st : RState)
    (ev : Events) (eargs : List Val) :
    fire_event eng st ev eargs =
      (eng, TraceEntry.fire ev st.iteration st.epoch ::
        regCalls ev eargs (regsAt eng ev), none) :=
  fire_event_okFalse (h.pointwise ev st eargs)

/-- One full dataset pass with benign handlers, a clear termination flag
and a never-raising process function: every batch is processed, the
iteration counter advances by the number of batches, and the engine is
left exactly as it was. -/
theorem runOnceLoop_benign {proc : ProcFn} (hpt : ProcTotal proc) :
    ∀ (bs : List Val) (eng : Engine) (st : RState), EngineBenign eng →
      eng.should_terminate = false →
      (runOnceLoop proc eng st bs).1 = eng ∧
      (runOnceLoop proc eng st bs).2.2.2 = none ∧
      (runOnceLoop proc eng st bs).2.1.iteration = st.iteration + bs.length ∧
      (runOnceLoop proc eng st bs).2.1.epoch = st.epoch ∧
      (runOnceLoop proc eng st bs).2.1.max_epochs = st.max_epochs ∧
      (runOnceLoop proc eng st bs).2.1.dataloader = st.dataloader
  | [], eng, st, _, _ => ⟨rfl, rfl, by simp [runOnceLoop], rfl, rfl, rfl⟩
  | b :: bs, eng, st, hben, hterm => by
    obtain ⟨v, hv⟩ := hpt { st with batch := b, iteration := st.iteration + 1 } b
    have hIS := fire_event_benign hben
      { st with batch := b, iteration := st.iteration + 1 } .ITERATION_STARTED []
    have hIC := fire_event_benign hben
      { st with batch := b, iteration := st.iteration + 1, output := v }
      .ITERATION_COMPLETED []
    have ih := runOnceLoop_benign hpt bs eng
      { st with batch := b, iteration := st.iteration + 1, output := v }
      hben hterm
    cases hq : runOnceLoop proc eng
        { st with batch := b, iteration := st.iteration + 1, output := v } bs with
    | mk eng3 rest3 =>
      obtain ⟨st3, tr3, err3⟩ := rest3
      rw [hq] at ih
      simp only at ih
      obtain ⟨iheng, iherr, ihit, ihep, ihme, ihdl⟩ := ih
      rw [iheng, iherr] at hq
      simp only [runOnceLoop, hIS, hv, hIC, hterm, Bool.false_eq_true, if_false,
        hq]
      refine ⟨by trivial, by trivial, ?_, ihep, ihme, ihdl⟩
      rw [ihit]
      simp only [List.length_cons]
      omega

/-- The epoch loop with benign handlers, a clear flag and a total process
function runs exactly the remaining `maxE - st.epoch` epochs, each pass
over the full dataset. -/
theorem epochLoop_benign {proc : ProcFn} (hpt : ProcTotal proc) (maxE : Nat) :
    ∀ (fuel : Nat) (eng : Engine) (st : RState), EngineBenign eng →
      eng.should_terminate = false → st.epoch ≤ maxE → maxE - st.epoch ≤ fuel →
      (epochLoop proc maxE fuel eng st).1 = eng ∧
      (epochLoop proc maxE fuel eng st).2.2.2 = none ∧
      (epochLoop proc maxE fuel eng st).2.1.epoch = maxE ∧
      (epochLoop proc maxE fuel eng st).2.1.iteration =
        st.iteration + (maxE - st.epoch) * st.dataloader.length ∧
      (epochLoop proc maxE fuel eng st).2.1.max_epochs = st.max_epochs ∧
      (epochLoop proc maxE fuel eng st).2.1.dataloader = st.dataloader
  | 0, eng, st, _, _, hle, hfuel => by
    have hepeq : st.epoch = maxE := by omega
    have hsub : maxE - st.epoch = 0 := by omega
    exact ⟨rfl, rfl, hepeq, by rw [hsub]; simp [epochLoop], rfl, rfl⟩
  | fuel + 1, eng, st, hben, hterm, hle, hfuel => by
    by_cases hlt : st.epoch < maxE
    · have hg : (decide (st.epoch < maxE) && !eng.should_terminate) = true := by
        simp [hlt, hterm]
      have hES := fire_event_benign hben { st with epoch := st.epoch + 1 }
        .EPOCH_STARTED []
      have hpass := runOnceLoop_benign hpt
        ({ st with epoch := st.epoch + 1 } : RState).dataloader eng
        { st with epoch := st.epoch + 1 } hben hterm
      cases hq : runOnceLoop proc eng { st with epoch := st.epoch + 1 }
          ({ st with epoch := st.epoch + 1 } : RState).dataloader with
      | mk eng1 rest1 =>
        obtain ⟨st1, tr1, err1⟩ := rest1
        rw [hq] at hpass
        simp only at hpass
        obtain ⟨heng1, herr1, hit1, hep1, hme1, hdl1⟩ := hpass
        rw [heng1, herr1] at hq
        have hrod : run_once_on_dataset proc eng { st with epoch := st.epoch + 1 } =
            (eng, st1, tr1, .timing) := by
          simp only [run_once_on_dataset, hq]
        have hEC := fire_event_benign hben st1 .EPOCH_COMPLETED []
        have ih := epochLoop_benign hpt maxE fuel eng st1 hben hterm
          (by rw [hep1]; omega) (by rw [hep1]; omega)
        cases hr2 : epochLoop proc maxE fuel eng st1 with
        | mk eng4 rest4 =>
          obtain ⟨st4, tr4, err4⟩ := rest4
          rw [hr2] at ih
          simp only at ih
          obtain ⟨iheng, iherr, ihep, ihit, ihme, ihdl⟩ := ih
          rw [iheng, iherr] at hr2
          have hneg : ¬(eng.should_terminate = true) := by
            rw [hterm]
            exact Bool.false_ne_true
          simp only [epochLoop]
          rw [if_pos hg]
          simp only [hES, hrod]
          rw [if_neg hneg]
          simp only [hEC, hr2]
          refine ⟨by trivial, by trivial, ihep, ?_, ihme.trans hme1,
            ihdl.trans hdl1⟩
          rw [ihit, hit1, hdl1, hep1]
          have hsub : maxE - st.epoch = (maxE - (st.epoch + 1)) + 1 := by omega
          rw [hsub, Nat.succ_mul]
          omega
    · have hepeq : st.epoch = maxE := by omega
      have hsub : maxE - st.epoch = 0 := by omega
      have hg : (decide (st.epoch < maxE) && !eng.should_terminate) = false := by
        simp [hlt]
      simp only [epochLoop, hg, Bool.false_eq_true, if_false]
      exact ⟨by trivial, by trivial, hepeq, by rw [hsub]; simp, by trivial,
        by trivial⟩

/-! ### Claim theorems -/

/-- C1: for every positive max_epochs N and dataset of B batches, when no
handler or the caller requests termination (the flag is clear and every
registered handler returns normally without calling terminate) and no
exception is raised (the process function always returns), run returns
normally and the returned state has iteration = N * B and epoch = N. -/
theorem C1_run_counts (eng : Engine) (data : List Val) (N : Nat) (proc : ProcFn)
    (hN : 1 ≤ N) (hterm : eng.should_terminate = false)
    (hben : EngineBenign eng) (hpt : ProcTotal proc) :
    (Engine.run eng data N proc).raised = none ∧
    (Engine.run eng data N proc).state.iteration = N * data.length ∧
    (Engine.run eng data N proc).state.epoch = N := by
  have hS := fire_event_benign hben (initialState data N) .STARTED []
  have hl := epochLoop_benign hpt N N eng (initialState data N) hben hterm
    (Nat.zero_le N) (by omega)
  cases hq : epochLoop proc N N eng (initialState data N) with
  | mk eng2 rest2 =>
    obtain ⟨st2, tr2, err2⟩ := rest2
    rw [hq] at hl
    simp only at hl
    obtain ⟨heng2, herr2, hep2, hit2, hme2, hdl2⟩ := hl
    rw [heng2, herr2] at hq
    have hC := fire_event_benign hben st2 .COMPLETED []
    have hit : st2.iteration = N * data.length := by
      rw [hit2]
      simp [initialState]
    refine ⟨?_, ?_, ?_⟩ <;>
      simp only [Engine.run, hS, hq, hC] <;>
      first
        | rfl
        | exact hit
        | exact hep2

/-- Witness for C1: three batches, two epochs, identity-like process
function, no handlers. -/
theorem C1_witness :
    1 ≤ 2 ∧
    ((Engine.run { event_handlers := [], should_terminate := false }
        [Val.vint 1, Val.vint 2, Val.vint 3] 2 (fun _ b => Except.ok b)).raised = none ∧
     (Engine.run { event_handlers := [], should_terminate := false }
        [Val.vint 1, Val.vint 2, Val.vint 3] 2 (fun _ b => Except.ok b)).state.iteration =
       2 * ([Val.vint 1, Val.vint 2, Val.vint 3] : List Val).length ∧
     (Engine.run { event_handlers := [], should_terminate := false }
        [Val.vint 1, Val.vint 2, Val.vint 3] 2 (fun _ b => Except.ok b)).state.epoch = 2) :=
  ⟨by omega,
   C1_run_counts { event_handlers := [], should_terminate := false }
     [Val.vint 1, Val.vint 2, Val.vint 3] 2 (fun _ b => Except.ok b)
     (by omega) rfl
     (by intro en regs h; cases h)
     (fun st b => ⟨b, rfl⟩)⟩

/-- C8: throughout every run the iteration counter strictly increases,
recorded as the consecutive values 1, 2, ... at the ITERATION_STARTED
dispatches, one per processed batch, never decremented or reset between
epochs, and the final counter equals the number of processed batches; the
epoch counter never exceeds max_epochs, neither in the final state nor at
any dispatch point; and after any sequence of add_event_handler calls
starting from a table whose keys are valid, the keys remain a subset of
the seven Events tags. -/
theorem C8_run_invariants (eng : Engine) (data : List Val) (N : Nat)
    (proc : ProcFn) (reqs : List (EventName × Reg)) :
    (iterStartFires (Engine.run eng data N proc).trace =
      List.range' 1 ((iterStartFires (Engine.run eng data N proc).trace).length) ∧
     (Engine.run eng data N proc).state.iteration =
      (iterStartFires (Engine.run eng data N proc).trace).length) ∧
    ((Engine.run eng data N proc).state.epoch ≤ N ∧
     (∀ ev i ep, TraceEntry.fire ev i ep ∈ (Engine.run eng data N proc).trace →
       ep ≤ N)) ∧
    (ValidKeys eng.event_handlers →
      ValidKeys (applyAdds eng reqs).event_handlers) := by
  obtain ⟨m, hit, hisf, hep, hfle, _, _⟩ := run_gen eng data N proc
  have hlen : (iterStartFires (Engine.run eng data N proc).trace).length = m := by
    rw [hisf]
    exact List.length_range' 1 1 m
  refine ⟨⟨?_, ?_⟩, ⟨hep, hfle⟩, applyAdds_validKeys reqs eng⟩
  · rw [hisf, List.length_range' 1 1 m]
  · rw [hit, hlen]

/-- Witness for C8 at a concrete engine and registration sequence. -/
theorem C8_witness :
    ValidKeys ({ event_handlers := [], should_terminate := false } : Engine).event_handlers ∧
    ValidKeys (applyAdds { event_handlers := [], should_terminate := false }
      [(EventName.tag .STARTED, ⟨0, fun _ _ _ => HEffect.ok false, [], []⟩)]).event_handlers := by
  have hvk : ValidKeys ({ event_handlers := [], should_terminate := false } :
      Engine).event_handlers := by
    intro kv hkv
    cases hkv
  exact ⟨hvk, (C8_run_invariants { event_handlers := [], should_terminate := false }
    [Val.vint 1] 1 (fun _ b => Except.ok b)
    [(EventName.tag .STARTED, ⟨0, fun _ _ _ => HEffect.ok false, [], []⟩)]).2.2 hvk⟩

/-- C7: calling add_event_handler with any value that is not one of the
seven Events tags raises the invalid-event ValueError synchronously, and
the handler table the caller holds afterwards is exactly the one from
before the call; no registration occurs for any event. -/
theorem C7_invalid_event (eng : Engine) (v : Val) (r : Reg) :
    add_event_handler eng (.other v) r =
      Except.error (invalidEventError (.other v)) ∧
    tableAfter eng (.other v) r = eng.event_handlers := by
  constructor
  · simp [add_event_handler, EventName.isValidEvent]
  · simp [tableAfter, add_event_handler, EventName.isValidEvent]

/-- C6: for every event and dispatch, if no registrations exist the
dispatch leaves the engine unchanged, makes no handler call and raises
nothing; otherwise every registration is invoked synchronously in
registration order, each receiving the engine handle first (the handler
function is applied to the current run state), then the event arguments,
then its stored extra positional arguments and its stored keyword
arguments; and if a handler raises, the error propagates out of the
dispatch at once and the remaining registrations are not invoked. -/
theorem C6_dispatch (eng : Engine) (st : RState) (ev : Events)
    (eargs : List Val) :
    (dictLookup eng.event_handlers (.tag ev) = none →
      fire_event eng st ev eargs =
        (eng, [TraceEntry.fire ev st.iteration st.epoch], none)) ∧
    (∀ regs, dictLookup eng.event_handlers (.tag ev) = some regs →
      (∀ r ∈ regs, ∃ b, r.fn st (eargs ++ r.args) r.kwargs = HEffect.ok b) →
      ∃ eng2, fire_event eng st ev eargs =
        (eng2, TraceEntry.fire ev st.iteration st.epoch ::
          regCalls ev eargs regs, none) ∧
        eng2.event_handlers = eng.event_handlers) ∧
    (∀ pre r post e,
      dictLookup eng.event_handlers (.tag ev) = some (pre ++ r :: post) →
      (∀ q ∈ pre, ∃ b, q.fn st (eargs ++ q.args) q.kwargs = HEffect.ok b) →
      r.fn st (eargs ++ r.args) r.kwargs = HEffect.raiseErr e →
      ∃ eng2, fire_event eng st ev eargs =
        (eng2, TraceEntry.fire ev st.iteration st.epoch ::
          (regCalls ev eargs pre ++
            [TraceEntry.call ev r.hid (eargs ++ r.args) r.kwargs]), some e)) := by
  refine ⟨?_, ?_, ?_⟩
  · intro h
    simp [fire_event, h]
  · intro regs hl hok
    obtain ⟨eng2, h2⟩ := fireList_noRaise st ev eargs regs eng hok
    have hfr := fireList_frame st ev eargs regs eng
    rw [h2] at hfr
    refine ⟨eng2, ?_, hfr.1⟩
    simp only [fire_event, hl, h2]
  · intro pre r post e hl hpre hr
    obtain ⟨eng2, h2⟩ := fireList_failFast st ev eargs r post e pre eng hpre hr
    refine ⟨eng2, ?_⟩
    simp only [fire_event, hl, h2]

/-- Witness for C6: a dispatch with two registrations where the first
returns normally and the second raises stops after the second call. -/
theorem C6_witness :
    (dictLookup twoRegEngine.event_handlers (.tag .ITERATION_STARTED) =
      some ([regOkA] ++ regRaiseB :: [])) ∧
    (∃ eng2, fire_event twoRegEngine (initialState [] 1) .ITERATION_STARTED [] =
      (eng2, TraceEntry.fire .ITERATION_STARTED (initialState [] 1).iteration
          (initialState [] 1).epoch ::
        (regCalls .ITERATION_STARTED [] [regOkA] ++
          [TraceEntry.call .ITERATION_STARTED regRaiseB.hid
            ([] ++ regRaiseB.args) regRaiseB.kwargs]),
        some errBoom)) := by
  refine ⟨rfl, ?_⟩
  exact (C6_dispatch twoRegEngine (initialState [] 1) .ITERATION_STARTED []).2.2
    [regOkA] regRaiseB [] errBoom rfl
    (by
      intro q hq
      rcases List.mem_singleton.mp hq with rfl
      exact ⟨false, rfl⟩)
    rfl

/-! ### The State constructor (claim C10) -/

theorem setattr_foldl (kwargs : List (String × AttrVal)) :
    ∀ (m : String → Option AttrVal) (k : String),
      kwargs.foldl (fun m2 kv => setattrFn m2 kv.1 kv.2) m k =
        match lookupLast kwargs k with
        | some v => some v
        | none => m k := by
  induction kwargs with
  | nil => intro m k; rfl
  | cons kv rest ih =>
    intro m k
    simp only [List.foldl_cons, ih, lookupLast]
    cases lookupLast rest k with
    | some v => rfl
    | none =>
      simp only [setattrFn]
      by_cases hk : kv.1 = k
      · rw [if_pos hk, if_pos hk.symm]
      · rw [if_neg hk, if_neg (fun h => hk h.symm)]

theorem State.init_eq (kwargs : List (String × AttrVal)) (k : String) :
    State.init kwargs k =
      match lookupLast kwargs k with
      | some v => some v
      | none => stateDefaults k :=
  setattr_foldl kwargs stateDefaults k

/-- C10: State.__init__ first sets iteration = 0, output = None and
batch = None, then applies every construction keyword in order, so a
keyword named iteration, output or batch overrides its default, and any
other keyword becomes a new attribute; run constructs the state with
dataloader, epoch = 0, the given max_epochs and empty metrics through
this mechanism, and the resulting attribute map agrees with the run
state record the loop operates on. -/
theorem C10_state_attributes (kwargs : List (String × AttrVal)) :
    (lookupLast kwargs ("iteration") = none →
      State.init kwargs ("iteration") = some (.av (.vint 0))) ∧
    (∀ v, lookupLast kwargs ("iteration") = some v →
      State.init kwargs ("iteration") = some v) ∧
    (lookupLast kwargs ("output") = none →
      State.init kwargs ("output") = some (.av .vnone)) ∧
    (∀ v, lookupLast kwargs ("output") = some v →
      State.init kwargs ("output") = some v) ∧
    (lookupLast kwargs ("batch") = none →
      State.init kwargs ("batch") = some (.av .vnone)) ∧
    (∀ v, lookupLast kwargs ("batch") = some v →
      State.init kwargs ("batch") = some v) ∧
    (∀ k, k ≠ ("iteration") → k ≠ ("output") → k ≠ ("batch") →
      State.init kwargs k = lookupLast kwargs k) ∧
    (∀ (data : List Val) (maxE : Nat) (k : String),
      State.init (runKwargs data maxE) k = (initialState data maxE).toAttrs k) := by
  refine ⟨?_, ?_, ?_, ?_, ?_, ?_, ?_, ?_⟩
  · intro h
    rw [State.init_eq, h]
    simp [stateDefaults]
  · intro v h
    rw [State.init_eq, h]
  · intro h
    rw [State.init_eq, h]
    simp [stateDefaults]
  · intro v h
    rw [State.init_eq, h]
  · intro h
    rw [State.init_eq, h]
    simp [stateDefaults]
  · intro v h
    rw [State.init_eq, h]
  · intro k h1 h2 h3
    rw [State.init_eq]
    cases hl : lookupLast kwargs k with
    | some v => rfl
    | none => simp [stateDefaults, h1, h2, h3]
  · intro data maxE k
    rw [State.init_eq]
    by_cases h1 : k = ("dataloader")
    · subst h1
      simp [lookupLast, runKwargs, stateDefaults, RState.toAttrs, initialState]
    by_cases h2 : k = ("epoch")
    · subst h2
      simp [lookupLast, runKwargs, stateDefaults, RState.toAttrs, initialState]
    by_cases h3 : k = ("max_epochs")
    · subst h3
      simp [lookupLast, runKwargs, stateDefaults, RState.toAttrs, initialState]
    by_cases h4 : k = ("metrics")
    · subst h4
      simp [lookupLast, runKwargs, stateDefaults, RState.toAttrs, initialState]
    by_cases h5 : k = ("iteration")
    · subst h5
      simp [lookupLast, runKwargs, stateDefaults, RState.toAttrs, initialState]
    by_cases h6 : k = ("output")
    · subst h6
      simp [lookupLast, runKwargs, stateDefaults, RState.toAttrs, initialState]
    by_cases h7 : k = ("batch")
    · subst h7
      simp [lookupLast, runKwargs, stateDefaults, RState.toAttrs, initialState]
    · have g1 : ("dataloader") ≠ k := fun h => h1 h.symm
      have g2 : ("epoch") ≠ k := fun h => h2 h.symm
      have g3 : ("max_epochs") ≠ k := fun h => h3 h.symm
      have g4 : ("metrics") ≠ k := fun h => h4 h.symm
      simp [lookupLast, runKwargs, stateDefaults, RState.toAttrs, initialState,
        h1, h2, h3, h4, h5, h6, h7, g1, g2, g3, g4]

/-- Witness for C10: a supplied iteration keyword overrides the default,
and an unknown keyword becomes a new attribute. -/
theorem C10_witness :
    lookupLast [(("iteration"), AttrVal.av (.vint 5)),
      (("foo"), AttrVal.av (.vstr ("bar")))] ("iteration") =
      some (AttrVal.av (.vint 5)) ∧
    State.init [(("iteration"), AttrVal.av (.vint 5)),
      (("foo"), AttrVal.av (.vstr ("bar")))] ("iteration") =
      some (AttrVal.av (.vint 5)) ∧
    State.init [(("iteration"), AttrVal.av (.vint 5)),
      (("foo"), AttrVal.av (.vstr ("bar")))] ("foo") =
      lookupLast [(("iteration"), AttrVal.av (.vint 5)),
        (("foo"), AttrVal.av (.vstr ("bar")))] ("foo") := by
  have hl : lookupLast [(("iteration"), AttrVal.av (.vint 5)),
      (("foo"), AttrVal.av (.vstr ("bar")))] ("iteration") =
      some (AttrVal.av (.vint 5)) := by decide
  refine ⟨hl, ?_, ?_⟩
  · exact (C10_state_attributes _).2.1 _ hl
  · exact (C10_state_attributes _).2.2.2.2.2.2.1 ("foo")
      (by decide) (by decide) (by decide)

/-! ### Runs that never call terminate leave the engine untouched -/

theorem EngineNoTerm.noTermAt {eng : Engine} (h : EngineNoTerm eng)
    (ev : Events) (st : RState) (eargs : List Val) :
    ∀ r ∈ regsAt eng ev, r.fn st (eargs ++ r.args) r.kwargs ≠ .ok true := by
  intro r hr
  cases hl : dictLookup eng.event_handlers (.tag ev) with
  | none => rw [regsAt_eq_nil_of_lookup hl] at hr; cases hr
  | some regs =>
    rw [regsAt_eq_of_lookup hl] at hr
    exact h _ regs hl r hr st (eargs ++ r.args) r.kwargs

theorem handle_exception_noTerm {eng : Engine} (h : EngineNoTerm eng)
    (st : RState) (e : PyError) : (handle_exception eng st e).1 = eng := by
  cases hk : hasExcKey eng with
  | false => rw [handle_exception_noKey hk]
  | true =>
    rw [handle_exception_key hk]
    exact fire_event_noTerm (h.noTermAt .EXCEPTION_RAISED st [Val.verr e])

theorem runOnceLoop_noTerm {proc : ProcFn} :
    ∀ (bs : List Val) (eng : Engine) (st : RState), EngineNoTerm eng →
      (runOnceLoop proc eng st bs).1 = eng
  | [], _, _, _ => rfl
  | b :: bs, eng, st, hnt => by
    have h1 := fire_event_noTerm (hnt.noTermAt .ITERATION_STARTED
      { st with batch := b, iteration := st.iteration + 1 } [])
    cases heq1 : fire_event eng { st with batch := b, iteration := st.iteration + 1 }
        .ITERATION_STARTED [] with
    | mk e1 rest1 =>
      obtain ⟨tr1, err1⟩ := rest1
      rw [heq1] at h1
      simp only at h1
      rw [h1] at heq1
      cases err1 with
      | some e => simp only [runOnceLoop, heq1]
      | none =>
        cases hp : proc { st with batch := b, iteration := st.iteration + 1 } b with
        | error e => simp only [runOnceLoop, heq1, hp]
        | ok out =>
          have h2 := fire_event_noTerm (hnt.noTermAt .ITERATION_COMPLETED
            { st with batch := b, iteration := st.iteration + 1, output := out } [])
          cases heq2 : fire_event eng
              { st with batch := b, iteration := st.iteration + 1, output := out }
              .ITERATION_COMPLETED [] with
          | mk e2 rest2 =>
            obtain ⟨tr2, err2⟩ := rest2
            rw [heq2] at h2
            simp only at h2
            rw [h2] at heq2
            cases err2 with
            | some e => simp only [runOnceLoop, heq1, hp, heq2]
            | none =>
              cases hterm : eng.should_terminate with
              | true => simp only [runOnceLoop, heq1, hp, heq2, hterm, if_true]
              | false =>
                have ih := @runOnceLoop_noTerm proc bs eng
                  { st with batch := b, iteration := st.iteration + 1, output := out }
                  hnt
                cases hq : runOnceLoop proc eng
                    { st with batch := b, iteration := st.iteration + 1, output := out }
                    bs with
                | mk e3 rest3 =>
                  obtain ⟨st3, tr3, err3⟩ := rest3
                  rw [hq] at ih
                  simp only at ih
                  rw [ih] at hq
                  simp only [runOnceLoop, heq1, hp, heq2, hterm,
                    Bool.false_eq_true, if_false, hq]

theorem run_once_noTerm {proc : ProcFn} {eng : Engine} (st : RState)
    (hnt : EngineNoTerm eng) : (run_once_on_dataset proc eng st).1 = eng := by
  have h1 := @runOnceLoop_noTerm proc st.dataloader eng st hnt
  cases hq : runOnceLoop proc eng st st.dataloader with
  | mk e1 rest1 =>
    obtain ⟨st1, tr1, err1⟩ := rest1
    rw [hq] at h1
    simp only at h1
    rw [h1] at hq
    cases err1 with
    | none => simp only [run_once_on_dataset, hq]
    | some e =>
      have h2 := handle_exception_noTerm hnt st1 e
      cases hh : handle_exception eng st1 e with
      | mk e2 rest2 =>
        obtain ⟨tr2, out2⟩ := rest2
        rw [hh] at h2
        simp only at h2
        rw [h2] at hh
        cases out2 with
        | none => simp only [run_once_on_dataset, hq, hh]
        | some e2 => simp only [run_once_on_dataset, hq, hh]

theorem epochLoop_noTerm {proc : ProcFn} {maxE : Nat} :
    ∀ (fuel : Nat) (eng : Engine) (st : RState), EngineNoTerm eng →
      (epochLoop proc maxE fuel eng st).1 = eng
  | 0, _, _, _ => rfl
  | fuel + 1, eng, st, hnt => by
    cases hg : (decide (st.epoch < maxE) && !eng.should_terminate) with
    | false => simp only [epochLoop, hg, Bool.false_eq_true, if_false]
    | true =>
      have h1 := fire_event_noTerm (hnt.noTermAt .EPOCH_STARTED
        { st with epoch := st.epoch + 1 } [])
      cases heq1 : fire_event eng { st with epoch := st.epoch + 1 }
          .EPOCH_STARTED [] with
      | mk e1 rest1 =>
        obtain ⟨tr1, err1⟩ := rest1
        rw [heq1] at h1
        simp only at h1
        rw [h1] at heq1
        cases err1 with
        | some e => simp only [epochLoop, hg, if_true, heq1]
        | none =>
          have h2 := @run_once_noTerm proc eng
            { st with epoch := st.epoch + 1 } hnt
          cases hrod : run_once_on_dataset proc eng { st with epoch := st.epoch + 1 } with
          | mk e2 rest2 =>
            obtain ⟨st2, tr2, out2⟩ := rest2
            rw [hrod] at h2
            simp only at h2
            rw [h2] at hrod
            cases out2 with
            | raised e => simp only [epochLoop, hg, if_true, heq1, hrod]
            | noneReturn => simp only [epochLoop, hg, if_true, heq1, hrod]
            | timing =>
              cases hterm : eng.should_terminate with
              | true =>
                simp only [epochLoop, hg, if_true, heq1, hrod, hterm, if_true]
                split
                all_goals rfl
              | false =>
                have h3 := fire_event_noTerm (hnt.noTermAt .EPOCH_COMPLETED st2 [])
                cases heq3 : fire_event eng st2 .EPOCH_COMPLETED [] with
                | mk e3 rest3 =>
                  obtain ⟨tr3, err3⟩ := rest3
                  rw [heq3] at h3
                  simp only at h3
                  rw [h3] at heq3
                  cases err3 with
                  | some e =>
                    simp only [epochLoop, hg, if_true, heq1, hrod, hterm,
                      Bool.false_eq_true, if_false, heq3]
                    split
                    all_goals rfl
                  | none =>
                    have ih := @epochLoop_noTerm proc maxE
                      fuel eng st2 hnt
                    cases hq : epochLoop proc maxE fuel eng st2 with
                    | mk e4 rest4 =>
                      obtain ⟨st4, tr4, err4⟩ := rest4
                      rw [hq] at ih
                      simp only at ih
                      rw [ih] at hq
                      simp only [epochLoop, hg, if_true, heq1, hrod, hterm,
                        Bool.false_eq_true, if_false, heq3, hq]
                      split
                      all_goals rfl

theorem run_noTerm {proc : ProcFn} {eng : Engine} (data : List Val) (N : Nat)
    (hnt : EngineNoTerm eng) : (Engine.run eng data N proc).engine = eng := by
  have h1 := fire_event_noTerm (hnt.noTermAt .STARTED (initialState data N) [])
  cases heq1 : fire_event eng (initialState data N) .STARTED [] with
  | mk e1 rest1 =>
    obtain ⟨tr1, err1⟩ := rest1
    rw [heq1] at h1
    simp only at h1
    rw [h1] at heq1
    cases err1 with
    | some e =>
      have h2 := handle_exception_noTerm hnt (initialState data N) e
      cases hh : handle_exception eng (initialState data N) e with
      | mk e2 rest2 =>
        obtain ⟨tr2, out2⟩ := rest2
        rw [hh] at h2
        simp only at h2
        rw [h2] at hh
        simp only [Engine.run, heq1, hh]
    | none =>
      have h2 := @epochLoop_noTerm proc N N eng
        (initialState data N) hnt
      cases hl : epochLoop proc N N eng (initialState data N) with
      | mk e2 rest2 =>
        obtain ⟨st2, tr2, err2⟩ := rest2
        rw [hl] at h2
        simp only at h2
        rw [h2] at hl
        cases err2 with
        | some e =>
          have h3 := handle_exception_noTerm hnt st2 e
          cases hh : handle_exception eng st2 e with
          | mk e3 rest3 =>
            obtain ⟨tr3, out3⟩ := rest3
            rw [hh] at h3
            simp only at h3
            rw [h3] at hh
            simp only [Engine.run, heq1, hl, hh]
        | none =>
          have h3 := fire_event_noTerm (hnt.noTermAt .COMPLETED st2 [])
          cases heq3 : fire_event eng st2 .COMPLETED [] with
          | mk e3 rest3 =>
            obtain ⟨tr3, err3⟩ := rest3
            rw [heq3] at h3
            simp only at h3
            rw [h3] at heq3
            cases err3 with
            | some e =>
              have h4 := handle_exception_noTerm hnt st2 e
              cases hh : handle_exception eng st2 e with
              | mk e4 rest4 =>
                obtain ⟨tr4, out4⟩ := rest4
                rw [hh] at h4
                simp only at h4
                rw [h4] at hh
                simp only [Engine.run, heq1, hl, heq3, hh]
            | none => simp only [Engine.run, heq1, hl, heq3]

/-- A run starting with the termination flag already set skips the epoch
loop entirely. -/
theorem epochLoop_flagged {proc : ProcFn} {maxE : Nat} {eng : Engine}
    (hterm : eng.should_terminate = true) (fuel : Nat) (st : RState) :
    epochLoop proc maxE fuel eng st = (eng, st, [], none) := by
  cases fuel with
  | zero => rfl
  | succ fuel =>
    have hg : (decide (st.epoch < maxE) && !eng.should_terminate) = false := by
      simp [hterm]
    simp only [epochLoop, hg, Bool.false_eq_true, if_false]

theorem EngineNoRaise.of_handlers_eq {e1 e2 : Engine}
    (h : e2.event_handlers = e1.event_handlers) (hn : EngineNoRaise e1) :
    EngineNoRaise e2 := by
  intro en regs hl
  rw [h] at hl
  exact hn en regs hl

/-- C9: run itself never writes the should_terminate flag: when no
registered handler calls terminate, the whole engine record (flag and
table) is returned exactly as it was.  Consequently a run call on an
engine whose flag is already true (carried over from a terminated run and
not cleared by any handler) executes zero epochs and zero iterations, its
fresh state keeps epoch = 0 and iteration = 0, and STARTED and COMPLETED
are still the only dispatches. -/
theorem C9_terminate_flag (eng : Engine) (data : List Val) (N : Nat)
    (proc : ProcFn) :
    (EngineNoTerm eng → (Engine.run eng data N proc).engine = eng) ∧
    (eng.should_terminate = true → EngineNoRaise eng →
      (Engine.run eng data N proc).raised = none ∧
      (Engine.run eng data N proc).state.epoch = 0 ∧
      (Engine.run eng data N proc).state.iteration = 0 ∧
      firedEvents (Engine.run eng data N proc).trace =
        [Events.STARTED, Events.COMPLETED]) := by
  constructor
  · intro hnt
    exact run_noTerm data N hnt
  · intro hterm hnr
    have hSp : ∀ r ∈ regsAt eng .STARTED,
        ∃ b, r.fn (initialState data N) ([] ++ r.args) r.kwargs = .ok b := by
      intro r hr
      cases hl : dictLookup eng.event_handlers (.tag .STARTED) with
      | none => rw [regsAt_eq_nil_of_lookup hl] at hr; cases hr
      | some regs =>
        rw [regsAt_eq_of_lookup hl] at hr
        exact hnr _ regs hl r hr (initialState data N) ([] ++ r.args) r.kwargs
    obtain ⟨eng1, heq1, hh1, hfl1⟩ := fire_event_noRaise hSp
    have hterm1 : eng1.should_terminate = true := hfl1 hterm
    have hl := @epochLoop_flagged proc N eng1 hterm1 N
      (initialState data N)
    have hnr1 : EngineNoRaise eng1 := EngineNoRaise.of_handlers_eq hh1 hnr
    have hCp : ∀ r ∈ regsAt eng1 .COMPLETED,
        ∃ b, r.fn (initialState data N) ([] ++ r.args) r.kwargs = .ok b := by
      intro r hr
      cases hl2 : dictLookup eng1.event_handlers (.tag .COMPLETED) with
      | none => rw [regsAt_eq_nil_of_lookup hl2] at hr; cases hr
      | some regs =>
        rw [regsAt_eq_of_lookup hl2] at hr
        exact hnr1 _ regs hl2 r hr (initialState data N) ([] ++ r.args) r.kwargs
    obtain ⟨eng2, heq2, hh2, hfl2⟩ := fire_event_noRaise hCp
    simp only [Engine.run, heq1, hl, heq2]
    refine ⟨by trivial, by trivial, by trivial, ?_⟩
    simp only [List.cons_append, List.append_assoc, firedEvents_cons_fire,
      firedEvents_append, OnlyCalls_firedEvents (OnlyCalls_regCalls _ _ _),
      firedEvents_nil, List.nil_append]

/-- Witness for C9: an engine with no handlers and the flag already set
runs zero epochs and zero iterations while still firing STARTED and
COMPLETED. -/
theorem C9_witness :
    ({ event_handlers := [], should_terminate := true } : Engine).should_terminate = true ∧
    ((Engine.run { event_handlers := [], should_terminate := true }
        [Val.vint 1, Val.vint 2] 3 (fun _ b => Except.ok b)).raised = none ∧
     (Engine.run { event_handlers := [], should_terminate := true }
        [Val.vint 1, Val.vint 2] 3 (fun _ b => Except.ok b)).state.epoch = 0 ∧
     (Engine.run { event_handlers := [], should_terminate := true }
        [Val.vint 1, Val.vint 2] 3 (fun _ b => Except.ok b)).state.iteration = 0 ∧
     firedEvents (Engine.run { event_handlers := [], should_terminate := true }
        [Val.vint 1, Val.vint 2] 3 (fun _ b => Except.ok b)).trace =
       [Events.STARTED, Events.COMPLETED]) :=
  ⟨rfl,
   (C9_terminate_flag { event_handlers := [], should_terminate := true }
     [Val.vint 1, Val.vint 2] 3 (fun _ b => Except.ok b)).2 rfl
     (by intro en regs h; cases h)⟩

/-! ### Exception routing out of the epoch loop (claims C2, C3) -/

theorem hasExcKey_congr {e1 e2 : Engine}
    (h : e1.event_handlers = e2.event_handlers) :
    hasExcKey e1 = hasExcKey e2 := by
  simp only [hasExcKey, containsKey, h]

theorem regsAt_congr {e1 e2 : Engine}
    (h : e1.event_handlers = e2.event_handlers) (ev : Events) :
    regsAt e1 ev = regsAt e2 ev := by
  simp only [regsAt, h]

/-- How `run` finishes when the epoch loop hands an exception to the
boundary `try`: without an EXCEPTION_RAISED key the same error propagates
to the caller; with the key present and benign registrations the run
returns normally with the loop state, and the whole loop trace is kept. -/
theorem run_of_epochLoop_error (eng : Engine) (data : List Val) (N : Nat)
    (proc : ProcFn) (eL : Engine) (stL : RState) (trL : List TraceEntry)
    (e : PyError)
    (hS : RegsAllOkFalse (regsAt eng .STARTED))
    (hl : epochLoop proc N N eng (initialState data N) = (eL, stL, trL, some e)) :
    (hasExcKey eL = false →
      (Engine.run eng data N proc).raised = some e ∧
      (Engine.run eng data N proc).state = stL) ∧
    (hasExcKey eL = true → RegsAllOkFalse (regsAt eL .EXCEPTION_RAISED) →
      (Engine.run eng data N proc).raised = none ∧
      (Engine.run eng data N proc).state = stL ∧
      ∀ t ∈ trL, t ∈ (Engine.run eng data N proc).trace) := by
  have hfS : fire_event eng (initialState data N) .STARTED [] =
      (eng, TraceEntry.fire .STARTED (initialState data N).iteration
        (initialState data N).epoch ::
        regCalls .STARTED [] (regsAt eng .STARTED), none) :=
    fire_event_okFalse (fun r hr => hS r hr _ _ _)
  constructor
  · intro hkey
    have hhx := @handle_exception_noKey eL stL e hkey
    simp only [Engine.run, hfS, hl, hhx]
    exact ⟨by trivial, by trivial⟩
  · intro hkey hEXCL
    have hfx : fire_event eL stL .EXCEPTION_RAISED [Val.verr e] =
        (eL, TraceEntry.fire .EXCEPTION_RAISED stL.iteration stL.epoch ::
          regCalls .EXCEPTION_RAISED [Val.verr e] (regsAt eL .EXCEPTION_RAISED),
          none) :=
      fire_event_okFalse (fun r hr => hEXCL r hr _ _ _)
    have hhx : handle_exception eL stL e =
        (eL, TraceEntry.fire .EXCEPTION_RAISED stL.iteration stL.epoch ::
          regCalls .EXCEPTION_RAISED [Val.verr e] (regsAt eL .EXCEPTION_RAISED),
          none) := by
      rw [handle_exception_key hkey, hfx]
    simp only [Engine.run, hfS, hl, hhx]
    refine ⟨by trivial, by trivial, ?_⟩
    intro t ht
    simp only [List.mem_append, List.mem_cons]
    tauto

/-- When the first epoch pass raises `e0`, the epoch loop ends with that
error (no key) or with the TypeError from unpacking the None returned by
`_run_once_on_dataset` after the handled exception (key present), in
which case the EXCEPTION_RAISED registrations have been called with
`e0`. -/
theorem epochLoop_first_pass (eng : Engine) (data : List Val) (n : Nat)
    (proc : ProcFn) (e0 : PyError) (e1 : Engine) (st1p : RState)
    (tr1p : List TraceEntry)
    (hterm : eng.should_terminate = false)
    (hES : RegsAllOkFalse (regsAt eng .EPOCH_STARTED))
    (hEXC : RegsAllOkFalse (regsAt eng .EXCEPTION_RAISED))
    (hq : runOnceLoop proc eng (firstPassState data (n + 1))
        (firstPassState data (n + 1)).dataloader = (e1, st1p, tr1p, some e0))
    (hh1 : e1.event_handlers = eng.event_handlers) :
    (hasExcKey eng = false →
      ∃ trL, epochLoop proc (n + 1) (n + 1) eng (initialState data (n + 1)) =
        (e1, st1p, trL, some e0)) ∧
    (hasExcKey eng = true →
      ∃ trL, epochLoop proc (n + 1) (n + 1) eng (initialState data (n + 1)) =
        (e1, st1p, trL, some unpackNoneError) ∧
        ∀ r ∈ regsAt eng .EXCEPTION_RAISED,
          TraceEntry.call .EXCEPTION_RAISED r.hid (Val.verr e0 :: r.args)
            r.kwargs ∈ trL) := by
  have hg : (decide ((initialState data (n + 1)).epoch < n + 1) &&
      !eng.should_terminate) = true := by
    simp [initialState, hterm]
  have hfES : fire_event eng
      { initialState data (n + 1) with
        epoch := (initialState data (n + 1)).epoch + 1 } .EPOCH_STARTED [] =
      (eng, TraceEntry.fire .EPOCH_STARTED
        (initialState data (n + 1)).iteration
        ((initialState data (n + 1)).epoch + 1) ::
        regCalls .EPOCH_STARTED [] (regsAt eng .EPOCH_STARTED), none) :=
    fire_event_okFalse (fun r hr => hES r hr _ _ _)
  have hpassEq : runOnceLoop proc eng
      { initialState data (n + 1) with
        epoch := (initialState data (n + 1)).epoch + 1 }
      ({ initialState data (n + 1) with
        epoch := (initialState data (n + 1)).epoch + 1 } : RState).dataloader =
      runOnceLoop proc eng (firstPassState data (n + 1))
        (firstPassState data (n + 1)).dataloader := rfl
  constructor
  · intro hkey
    have hkey1 : hasExcKey e1 = false := by
      rw [hasExcKey_congr hh1]
      exact hkey
    have hhx := @handle_exception_noKey e1 st1p e0 hkey1
    have hrod : run_once_on_dataset proc eng
        { initialState data (n + 1) with
          epoch := (initialState data (n + 1)).epoch + 1 } =
        (e1, st1p, tr1p, .raised e0) := by
      simp only [run_once_on_dataset, hpassEq, hq, hhx, List.append_nil]
    refine ⟨TraceEntry.fire .EPOCH_STARTED (initialState data (n + 1)).iteration
      ((initialState data (n + 1)).epoch + 1) ::
      (regCalls .EPOCH_STARTED [] (regsAt eng .EPOCH_STARTED) ++ tr1p), ?_⟩
    simp only [epochLoop]
    rw [if_pos hg]
    simp only [hfES, hrod, List.cons_append]
  · intro hkey
    have hkey1 : hasExcKey e1 = true := by
      rw [hasExcKey_congr hh1]
      exact hkey
    have hregs : regsAt e1 .EXCEPTION_RAISED = regsAt eng .EXCEPTION_RAISED :=
      regsAt_congr hh1 .EXCEPTION_RAISED
    have hfx : fire_event e1 st1p .EXCEPTION_RAISED [Val.verr e0] =
        (e1, TraceEntry.fire .EXCEPTION_RAISED st1p.iteration st1p.epoch ::
          regCalls .EXCEPTION_RAISED [Val.verr e0] (regsAt eng .EXCEPTION_RAISED),
          none) := by
      have := @fire_event_okFalse e1 st1p
        Events.EXCEPTION_RAISED [Val.verr e0]
        (fun r hr => hEXC r (hregs ▸ hr) _ _ _)
      rw [hregs] at this
      exact this
    have hhx : handle_exception e1 st1p e0 =
        (e1, TraceEntry.fire .EXCEPTION_RAISED st1p.iteration st1p.epoch ::
          regCalls .EXCEPTION_RAISED [Val.verr e0] (regsAt eng .EXCEPTION_RAISED),
          none) := by
      rw [handle_exception_key hkey1, hfx]
    have hrod : run_once_on_dataset proc eng
        { initialState data (n + 1) with
          epoch := (initialState data (n + 1)).epoch + 1 } =
        (e1, st1p, tr1p ++
          (TraceEntry.fire .EXCEPTION_RAISED st1p.iteration st1p.epoch ::
            regCalls .EXCEPTION_RAISED [Val.verr e0]
              (regsAt eng .EXCEPTION_RAISED)), .noneReturn) := by
      simp only [run_once_on_dataset, hpassEq, hq, hhx]
    refine ⟨TraceEntry.fire .EPOCH_STARTED (initialState data (n + 1)).iteration
      ((initialState data (n + 1)).epoch + 1) ::
      (regCalls .EPOCH_STARTED [] (regsAt eng .EPOCH_STARTED) ++
        (tr1p ++
          (TraceEntry.fire .EXCEPTION_RAISED st1p.iteration st1p.epoch ::
            regCalls .EXCEPTION_RAISED [Val.verr e0]
              (regsAt eng .EXCEPTION_RAISED)))), ?_, ?_⟩
    · simp only [epochLoop]
      rw [if_pos hg]
      simp only [hfES, hrod, List.cons_append]
    · intro r hr
      have hmem : TraceEntry.call .EXCEPTION_RAISED r.hid (Val.verr e0 :: r.args)
          r.kwargs ∈ regCalls .EXCEPTION_RAISED [Val.verr e0]
            (regsAt eng .EXCEPTION_RAISED) := by
        simp only [regCalls, List.mem_map]
        exact ⟨r, hr, by simp⟩
      simp only [List.mem_cons, List.mem_append]
      tauto

theorem EngineBenign.regsAllOkFalse {eng : Engine} (h : EngineBenign eng)
    (ev : Events) : RegsAllOkFalse (regsAt eng ev) := by
  intro r hr st a k
  cases hl : dictLookup eng.event_handlers (.tag ev) with
  | none => rw [regsAt_eq_nil_of_lookup hl] at hr; cases hr
  | some regs =>
    rw [regsAt_eq_of_lookup hl] at hr
    exact h _ regs hl r hr st a k

/-- C2: whenever the first dataset pass of a run raises an error `e0`
(whatever the source inside the pass: the process function or an
iteration-level handler), with the run-level handlers benign: if no
handler is registered for EXCEPTION_RAISED, run raises the same error
value `e0` to the caller (and hence returns no state); if the key is
registered, run returns normally and every EXCEPTION_RAISED registration
is invoked with the engine and that same error value. -/
theorem C2_exception_routing (eng : Engine) (data : List Val) (N : Nat)
    (proc : ProcFn) (e0 : PyError)
    (hterm : eng.should_terminate = false) (hN : 1 ≤ N)
    (hS : RegsAllOkFalse (regsAt eng .STARTED))
    (hES : RegsAllOkFalse (regsAt eng .EPOCH_STARTED))
    (hEXC : RegsAllOkFalse (regsAt eng .EXCEPTION_RAISED))
    (hfail : (runOnceLoop proc eng (firstPassState data N)
        (firstPassState data N).dataloader).2.2.2 = some e0) :
    (hasExcKey eng = false → (Engine.run eng data N proc).raised = some e0) ∧
    (hasExcKey eng = true →
      (Engine.run eng data N proc).raised = none ∧
      ∀ r ∈ regsAt eng .EXCEPTION_RAISED,
        TraceEntry.call .EXCEPTION_RAISED r.hid (Val.verr e0 :: r.args)
          r.kwargs ∈ (Engine.run eng data N proc).trace) := by
  obtain ⟨n, rfl⟩ : ∃ n, N = n + 1 := ⟨N - 1, by omega⟩
  have hgen := runOnceLoop_gen proc (firstPassState data (n + 1)).dataloader eng
    (firstPassState data (n + 1))
  cases hq : runOnceLoop proc eng (firstPassState data (n + 1))
      (firstPassState data (n + 1)).dataloader with
  | mk e1 rest1 =>
    obtain ⟨st1p, tr1p, err1⟩ := rest1
    rw [hq] at hgen hfail
    simp only at hfail
    subst hfail
    obtain ⟨m, _, _, _, _, _, hh1, _, _⟩ := hgen
    simp only at hh1
    have hfp := epochLoop_first_pass eng data n proc e0 e1 st1p tr1p hterm hES
      hEXC hq hh1
    constructor
    · intro hkey
      obtain ⟨trL, hl⟩ := hfp.1 hkey
      have hkeyL : hasExcKey e1 = false := by
        rw [hasExcKey_congr hh1]
        exact hkey
      exact ((run_of_epochLoop_error eng data (n + 1) proc e1 st1p trL e0
        hS hl).1 hkeyL).1
    · intro hkey
      obtain ⟨trL, hl, hcalls⟩ := hfp.2 hkey
      have hkeyL : hasExcKey e1 = true := by
        rw [hasExcKey_congr hh1]
        exact hkey
      have hEXCL : RegsAllOkFalse (regsAt e1 .EXCEPTION_RAISED) := by
        rw [regsAt_congr hh1]
        exact hEXC
      obtain ⟨hraised, hstate, htr⟩ := (run_of_epochLoop_error eng data (n + 1)
        proc e1 st1p trL unpackNoneError hS hl).2 hkeyL hEXCL
      exact ⟨hraised, fun r hr => htr _ (hcalls r hr)⟩

/-- Witness for C2: a process function that always raises, an engine with
one benign EXCEPTION_RAISED registration. -/
theorem C2_witness :
    hasExcKey excOnlyEngine = true ∧
    ((Engine.run excOnlyEngine [Val.vint 1] 1
        (fun _ _ => Except.error valueErrorX)).raised = none ∧
     ∀ r ∈ regsAt excOnlyEngine .EXCEPTION_RAISED,
        TraceEntry.call .EXCEPTION_RAISED r.hid (Val.verr valueErrorX :: r.args)
          r.kwargs ∈ (Engine.run excOnlyEngine [Val.vint 1] 1
            (fun _ _ => Except.error valueErrorX)).trace) := by
  refine ⟨rfl, ?_⟩
  refine (C2_exception_routing excOnlyEngine [Val.vint 1] 1
    (fun _ _ => Except.error valueErrorX) valueErrorX rfl (by omega)
    ?_ ?_ ?_ rfl).2 rfl
  · intro r hr
    exact absurd hr (List.not_mem_nil r)
  · intro r hr
    exact absurd hr (List.not_mem_nil r)
  · intro r hr st a k
    rcases List.mem_singleton.mp hr with rfl
    rfl

/-- One dataset pass with benign handlers where the process function
raises `e0` exactly at global iteration `k`: the pass stops there with
the error, the iteration counter at `k`, the epoch untouched and the
engine unchanged. -/
theorem runOnceLoop_failAt {k : Nat} {e0 : PyError} {g : RState → Val → Val} :
    ∀ (bs : List Val) (eng : Engine) (st : RState), EngineBenign eng →
      eng.should_terminate = false → st.iteration < k →
      k ≤ st.iteration + bs.length →
      (runOnceLoop (procFailAt k e0 g) eng st bs).1 = eng ∧
      (runOnceLoop (procFailAt k e0 g) eng st bs).2.2.2 = some e0 ∧
      (runOnceLoop (procFailAt k e0 g) eng st bs).2.1.iteration = k ∧
      (runOnceLoop (procFailAt k e0 g) eng st bs).2.1.epoch = st.epoch
  | [], _, st, _, _, hlt, hle => by
    simp only [List.length_nil, Nat.add_zero] at hle
    omega
  | b :: bs, eng, st, hben, hterm, hlt, hle => by
    have hIS := fire_event_benign hben
      { st with batch := b, iteration := st.iteration + 1 } .ITERATION_STARTED []
    by_cases hk : st.iteration + 1 = k
    · have hp : procFailAt k e0 g
          { st with batch := b, iteration := st.iteration + 1 } b =
          .error e0 := by
        simp [procFailAt, hk]
      simp only [runOnceLoop, hIS, hp]
      exact ⟨by trivial, by trivial, hk, by trivial⟩
    · have hp : procFailAt k e0 g
          { st with batch := b, iteration := st.iteration + 1 } b =
          .ok (g { st with batch := b, iteration := st.iteration + 1 } b) := by
        simp [procFailAt, hk]
      have hIC := fire_event_benign hben { st with batch := b, iteration := st.iteration + 1, output := g { st with batch := b, iteration := st.iteration + 1 } b } .ITERATION_COMPLETED []
      have ih := @runOnceLoop_failAt k e0 g bs eng { st with batch := b, iteration := st.iteration + 1, output := g { st with batch := b, iteration := st.iteration + 1 } b } hben hterm
        (by show st.iteration + 1 < k; omega)
        (by
          show k ≤ st.iteration + 1 + bs.length
          simp only [List.length_cons] at hle
          omega)
      cases hq : runOnceLoop (procFailAt k e0 g) eng { st with batch := b, iteration := st.iteration + 1, output := g { st with batch := b, iteration := st.iteration + 1 } b } bs with
      | mk e3 rest3 =>
        obtain ⟨st3, tr3, err3⟩ := rest3
        rw [hq] at ih
        simp only at ih
        obtain ⟨iheng, iherr, ihit, ihep⟩ := ih
        rw [iheng, iherr] at hq
        simp only [runOnceLoop, hIS, hp, hIC, hterm, Bool.false_eq_true,
          if_false, hq]
        exact ⟨by trivial, by trivial, ihit, ihep⟩

/-- C3: over a dataset of at least two batches, with the process function
raising ValueError x on the second batch and all handlers benign: with no
EXCEPTION_RAISED registration run raises the same ValueError x; with the
key registered run returns a state with iteration = 2 and epoch = 1 (no
further batch or epoch is processed) and every EXCEPTION_RAISED
registration received that same ValueError. -/
theorem C3_value_error (eng : Engine) (data : List Val) (N : Nat)
    (g : RState → Val → Val)
    (hB : 2 ≤ data.length) (hN : 1 ≤ N)
    (hterm : eng.should_terminate = false) (hben : EngineBenign eng) :
    (hasExcKey eng = false →
      (Engine.run eng data N (procFailAt 2 valueErrorX g)).raised =
        some valueErrorX) ∧
    (hasExcKey eng = true →
      (Engine.run eng data N (procFailAt 2 valueErrorX g)).raised = none ∧
      (Engine.run eng data N (procFailAt 2 valueErrorX g)).state.iteration = 2 ∧
      (Engine.run eng data N (procFailAt 2 valueErrorX g)).state.epoch = 1 ∧
      ∀ r ∈ regsAt eng .EXCEPTION_RAISED,
        TraceEntry.call .EXCEPTION_RAISED r.hid
          (Val.verr valueErrorX :: r.args) r.kwargs ∈
          (Engine.run eng data N (procFailAt 2 valueErrorX g)).trace) := by
  obtain ⟨n, rfl⟩ : ∃ n, N = n + 1 := ⟨N - 1, by omega⟩
  have hpass := @runOnceLoop_failAt 2 valueErrorX g
    (firstPassState data (n + 1)).dataloader eng (firstPassState data (n + 1))
    hben hterm
    (by show (0 : Nat) < 2; omega)
    (by show 2 ≤ 0 + data.length; omega)
  cases hq : runOnceLoop (procFailAt 2 valueErrorX g) eng
      (firstPassState data (n + 1)) (firstPassState data (n + 1)).dataloader with
  | mk e1 rest1 =>
    obtain ⟨st1p, tr1p, err1⟩ := rest1
    rw [hq] at hpass
    simp only at hpass
    obtain ⟨hpeng, hperr, hpit, hpep⟩ := hpass
    rw [hpeng, hperr] at hq
    have hpep1 : st1p.epoch = 1 := hpep
    have hfp := epochLoop_first_pass eng data n (procFailAt 2 valueErrorX g)
      valueErrorX eng st1p tr1p hterm (hben.regsAllOkFalse .EPOCH_STARTED)
      (hben.regsAllOkFalse .EXCEPTION_RAISED) hq rfl
    constructor
    · intro hkey
      obtain ⟨trL, hl⟩ := hfp.1 hkey
      exact ((run_of_epochLoop_error eng data (n + 1)
        (procFailAt 2 valueErrorX g) eng st1p trL valueErrorX
        (hben.regsAllOkFalse .STARTED) hl).1 hkey).1
    · intro hkey
      obtain ⟨trL, hl, hcalls⟩ := hfp.2 hkey
      obtain ⟨hraised, hstate, htr⟩ := (run_of_epochLoop_error eng data (n + 1)
        (procFailAt 2 valueErrorX g) eng st1p trL unpackNoneError
        (hben.regsAllOkFalse .STARTED) hl).2 hkey
        (hben.regsAllOkFalse .EXCEPTION_RAISED)
      refine ⟨hraised, ?_, ?_, fun r hr => htr _ (hcalls r hr)⟩
      · rw [hstate]
        exact hpit
      · rw [hstate]
        exact hpep1

/-- Witness for C3: three batches, one epoch, the benign
EXCEPTION_RAISED handler receives the ValueError and the state stops at
iteration 2 in epoch 1. -/
theorem C3_witness :
    hasExcKey excOnlyEngine = true ∧
    ((Engine.run excOnlyEngine [Val.vint 1, Val.vint 2, Val.vint 3] 1
        (procFailAt 2 valueErrorX (fun _ b => b))).raised = none ∧
     (Engine.run excOnlyEngine [Val.vint 1, Val.vint 2, Val.vint 3] 1
        (procFailAt 2 valueErrorX (fun _ b => b))).state.iteration = 2 ∧
     (Engine.run excOnlyEngine [Val.vint 1, Val.vint 2, Val.vint 3] 1
        (procFailAt 2 valueErrorX (fun _ b => b))).state.epoch = 1 ∧
     ∀ r ∈ regsAt excOnlyEngine .EXCEPTION_RAISED,
        TraceEntry.call .EXCEPTION_RAISED r.hid
          (Val.verr valueErrorX :: r.args) r.kwargs ∈
          (Engine.run excOnlyEngine [Val.vint 1, Val.vint 2, Val.vint 3] 1
            (procFailAt 2 valueErrorX (fun _ b => b))).trace) := by
  refine ⟨rfl, ?_⟩
  refine (C3_value_error excOnlyEngine [Val.vint 1, Val.vint 2, Val.vint 3] 1
    (fun _ b => b) (by decide) (by omega) rfl ?_).2 rfl
  intro en regs h r hr st a k
  simp only [excOnlyEngine, dictLookup] at h
  split at h
  · cases h
    rcases List.mem_singleton.mp hr with rfl
    rfl
  · cases h

/-! ### Event grammar of exception-free runs (claim C4) -/

theorem EngineNoRaise.regsNoRaise {eng : Engine} (h : EngineNoRaise eng)
    (ev : Events) : RegsNoRaise (regsAt eng ev) := by
  intro r hr st a k
  cases hl : dictLookup eng.event_handlers (.tag ev) with
  | none => rw [regsAt_eq_nil_of_lookup hl] at hr; cases hr
  | some regs =>
    rw [regsAt_eq_of_lookup hl] at hr
    exact h _ regs hl r hr st a k

theorem countFire_firedEvents (ev : Events) :
    ∀ tr : List TraceEntry,
      countFire ev tr = (firedEvents tr).countP (fun e => decide (e = ev))
  | [] => rfl
  | t :: tr => by
    cases t with
    | fire e i ep =>
      rw [countFire_cons_fire, firedEvents_cons_fire, List.countP_cons,
        countFire_firedEvents ev tr]
      simp
    | call e h a k =>
      rw [countFire_cons_call, firedEvents_cons_call, countFire_firedEvents ev tr]

/-- One dataset pass with handlers that never raise and a total process
function: no exception, the dispatches form ITERATION_STARTED /
ITERATION_COMPLETED pairs, and the handler table, epoch and dataloader
are preserved. -/
theorem runOnceLoop_noRaise {proc : ProcFn} (hpt : ProcTotal proc) :
    ∀ (bs : List Val) (eng : Engine) (st : RState), EngineNoRaise eng →
      (runOnceLoop proc eng st bs).2.2.2 = none ∧
      IterPairs (firedEvents (runOnceLoop proc eng st bs).2.2.1) ∧
      (runOnceLoop proc eng st bs).1.event_handlers = eng.event_handlers ∧
      (runOnceLoop proc eng st bs).2.1.epoch = st.epoch ∧
      (runOnceLoop proc eng st bs).2.1.dataloader = st.dataloader ∧
      countFire .EPOCH_STARTED (runOnceLoop proc eng st bs).2.2.1 = 0
  | [], eng, st, _ => ⟨rfl, IterPairs.nil, rfl, rfl, rfl, rfl⟩
  | b :: bs, eng, st, hnr => by
    obtain ⟨v, hv⟩ := hpt { st with batch := b, iteration := st.iteration + 1 } b
    obtain ⟨engA, heqA, hhA, hflA⟩ := @fire_event_noRaise
      eng { st with batch := b, iteration := st.iteration + 1 }
      Events.ITERATION_STARTED []
      (fun r hr => hnr.regsNoRaise .ITERATION_STARTED r hr _ _ _)
    have hnrA : EngineNoRaise engA := EngineNoRaise.of_handlers_eq hhA hnr
    obtain ⟨engB, heqB, hhB, hflB⟩ := @fire_event_noRaise
      engA { st with batch := b, iteration := st.iteration + 1, output := v }
      Events.ITERATION_COMPLETED []
      (fun r hr => hnrA.regsNoRaise .ITERATION_COMPLETED r hr _ _ _)
    have hnrB : EngineNoRaise engB :=
      EngineNoRaise.of_handlers_eq hhB hnrA
    have hreg : regsAt engA .ITERATION_COMPLETED =
        regsAt eng .ITERATION_COMPLETED := regsAt_congr hhA _
    cases hterm : engB.should_terminate with
    | true =>
      simp only [runOnceLoop, heqA, hv, heqB, hterm, if_true]
      refine ⟨by trivial, ?_, hhB.trans hhA, by trivial, by trivial, ?_⟩
      · simp only [List.cons_append, firedEvents_cons_fire, firedEvents_append,
          OnlyCalls_firedEvents (OnlyCalls_regCalls _ _ _), List.nil_append]
        exact IterPairs.cons IterPairs.nil
      · simp [List.cons_append, List.append_assoc, countFire_cons_fire,
          countFire_append, OnlyCalls_countFire (OnlyCalls_regCalls _ _ _)]
    | false =>
      have ih := runOnceLoop_noRaise hpt bs engB
        { st with batch := b, iteration := st.iteration + 1, output := v } hnrB
      cases hq : runOnceLoop proc engB
          { st with batch := b, iteration := st.iteration + 1, output := v }
          bs with
      | mk eng3 rest3 =>
        obtain ⟨st3, tr3, err3⟩ := rest3
        rw [hq] at ih
        simp only at ih
        obtain ⟨iherr, ihip, ihh, ihep, ihdl, ihcnt⟩ := ih
        simp only [runOnceLoop, heqA, hv, heqB, hterm, Bool.false_eq_true,
          if_false, hq]
        refine ⟨iherr, ?_, ihh.trans (hhB.trans hhA), ihep, ihdl, ?_⟩
        · simp only [List.cons_append, firedEvents_cons_fire, firedEvents_append,
            OnlyCalls_firedEvents (OnlyCalls_regCalls _ _ _), List.nil_append]
          exact IterPairs.cons ihip
        · simp [List.cons_append, List.append_assoc, countFire_cons_fire,
            countFire_append, OnlyCalls_countFire (OnlyCalls_regCalls _ _ _),
            ihcnt]

/-- The epoch loop with never-raising handlers and a total process
function: no exception escapes, the dispatches form the epoch-block
grammar, and the final epoch counter equals the starting one plus the
number of EPOCH_STARTED dispatches. -/
theorem epochLoop_noRaise {proc : ProcFn} (hpt : ProcTotal proc) (maxE : Nat) :
    ∀ (fuel : Nat) (eng : Engine) (st : RState), EngineNoRaise eng →
      (epochLoop proc maxE fuel eng st).2.2.2 = none ∧
      EpochBody (firedEvents (epochLoop proc maxE fuel eng st).2.2.1) ∧
      (epochLoop proc maxE fuel eng st).2.1.epoch =
        st.epoch + countFire .EPOCH_STARTED (epochLoop proc maxE fuel eng st).2.2.1 ∧
      (epochLoop proc maxE fuel eng st).1.event_handlers = eng.event_handlers
  | 0, eng, st, _ => ⟨rfl, EpochBody.nil, by simp [epochLoop], rfl⟩
  | fuel + 1, eng, st, hnr => by
    cases hg : (decide (st.epoch < maxE) && !eng.should_terminate) with
    | false =>
      simp only [epochLoop, hg, Bool.false_eq_true, if_false]
      exact ⟨by trivial, EpochBody.nil, by simp, by trivial⟩
    | true =>
      obtain ⟨engA, heqA, hhA, hflA⟩ := @fire_event_noRaise
        eng { st with epoch := st.epoch + 1 }
        Events.EPOCH_STARTED []
        (fun r hr => hnr.regsNoRaise .EPOCH_STARTED r hr _ _ _)
      have hnrA : EngineNoRaise engA := EngineNoRaise.of_handlers_eq hhA hnr
      have hro := runOnceLoop_noRaise hpt
        ({ st with epoch := st.epoch + 1 } : RState).dataloader engA
        { st with epoch := st.epoch + 1 } hnrA
      cases hq : runOnceLoop proc engA { st with epoch := st.epoch + 1 }
          ({ st with epoch := st.epoch + 1 } : RState).dataloader with
      | mk eng1 rest1 =>
        obtain ⟨st1, tr1, err1⟩ := rest1
        rw [hq] at hro
        simp only at hro
        obtain ⟨herr1, hip1, hh1, hep1, hdl1, hcnt1⟩ := hro
        subst herr1
        have hrod : run_once_on_dataset proc engA { st with epoch := st.epoch + 1 } =
            (eng1, st1, tr1, .timing) := by
          simp only [run_once_on_dataset, hq]
        have hnr1 : EngineNoRaise eng1 :=
          EngineNoRaise.of_handlers_eq (hh1.trans hhA) hnr
        cases hterm : eng1.should_terminate with
        | true =>
          simp only [epochLoop, hg, if_true, heqA, hrod, hterm, if_true]
          refine ⟨by trivial, ?_, ?_, hh1.trans hhA⟩
          · simp only [List.cons_append, firedEvents_cons_fire,
              firedEvents_append,
              OnlyCalls_firedEvents (OnlyCalls_regCalls _ _ _), List.nil_append]
            exact EpochBody.term hip1
          · simp only [List.cons_append, countFire_cons_fire, countFire_append,
              OnlyCalls_countFire (OnlyCalls_regCalls _ _ _), hcnt1]
            simp [hep1]
        | false =>
          obtain ⟨engC, heqC, hhC, hflC⟩ := @fire_event_noRaise
            eng1 st1 Events.EPOCH_COMPLETED []
            (fun r hr => hnr1.regsNoRaise .EPOCH_COMPLETED r hr _ _ _)
          have hnrC : EngineNoRaise engC := EngineNoRaise.of_handlers_eq hhC hnr1
          have ih := epochLoop_noRaise hpt maxE fuel engC st1 hnrC
          cases hrec : epochLoop proc maxE fuel engC st1 with
          | mk eng4 rest4 =>
            obtain ⟨st4, tr4, err4⟩ := rest4
            rw [hrec] at ih
            simp only at ih
            obtain ⟨iherr, ihbody, ihep, ihh⟩ := ih
            simp only [epochLoop, hg, if_true, heqA, hrod, hterm,
              Bool.false_eq_true, if_false, heqC, hrec]
            refine ⟨iherr, ?_, ?_, ihh.trans (hhC.trans (hh1.trans hhA))⟩
            · simp only [List.cons_append, List.append_assoc,
                firedEvents_cons_fire, firedEvents_append,
                OnlyCalls_firedEvents (OnlyCalls_regCalls _ _ _),
                List.nil_append]
              exact EpochBody.done hip1 ihbody
            · simp only [List.cons_append, List.append_assoc,
                countFire_cons_fire, countFire_append,
                OnlyCalls_countFire (OnlyCalls_regCalls _ _ _), hcnt1]
              simp only [ihep, hep1]
              simp
              omega

/-- C4: in every run without exceptions (handlers never raise, process
function total) the dispatch sequence between STARTED and COMPLETED
consists of epoch blocks: each epoch contributes exactly one
EPOCH_STARTED before its ITERATION_STARTED / ITERATION_COMPLETED pairs,
each fully completed epoch exactly one EPOCH_COMPLETED after its last
ITERATION_COMPLETED, and only a final terminated epoch block lacks the
EPOCH_COMPLETED; the number of EPOCH_STARTED dispatches equals the final
epoch counter. -/
theorem C4_event_order (eng : Engine) (data : List Val) (N : Nat)
    (proc : ProcFn) (hnr : EngineNoRaise eng) (hpt : ProcTotal proc) :
    (Engine.run eng data N proc).raised = none ∧
    ∃ body, firedEvents (Engine.run eng data N proc).trace =
        Events.STARTED :: body ++ [Events.COMPLETED] ∧
      EpochBody body ∧
      (Engine.run eng data N proc).state.epoch =
        body.countP (fun e => decide (e = Events.EPOCH_STARTED)) := by
  obtain ⟨engS, heqS, hhS, hflS⟩ := @fire_event_noRaise
    eng (initialState data N) Events.STARTED []
    (fun r hr => hnr.regsNoRaise .STARTED r hr _ _ _)
  have hnrS : EngineNoRaise engS := EngineNoRaise.of_handlers_eq hhS hnr
  have hl := epochLoop_noRaise hpt N N engS (initialState data N) hnrS
  cases hq : epochLoop proc N N engS (initialState data N) with
  | mk eng2 rest2 =>
    obtain ⟨st2, tr2, err2⟩ := rest2
    rw [hq] at hl
    simp only at hl
    obtain ⟨herr2, hbody, hep2, hh2⟩ := hl
    subst herr2
    have hnr2 : EngineNoRaise eng2 :=
      EngineNoRaise.of_handlers_eq (hh2.trans hhS) hnr
    obtain ⟨engC, heqC, hhC, hflC⟩ := @fire_event_noRaise
      eng2 st2 Events.COMPLETED []
      (fun r hr => hnr2.regsNoRaise .COMPLETED r hr _ _ _)
    simp only [Engine.run, heqS, hq, heqC]
    refine ⟨by trivial, firedEvents tr2, ?_, hbody, ?_⟩
    · simp only [List.cons_append, List.append_assoc, firedEvents_cons_fire,
        firedEvents_append, OnlyCalls_firedEvents (OnlyCalls_regCalls _ _ _),
        List.nil_append, List.append_nil]
    · rw [hep2, ← countFire_firedEvents]
      simp [initialState]

/-- Witness for C4: one batch, one epoch, no handlers. -/
theorem C4_witness :
    ((Engine.run { event_handlers := [], should_terminate := false }
        [Val.vint 7] 1 (fun _ b => Except.ok b)).raised = none ∧
     ∃ body, firedEvents (Engine.run { event_handlers := [], should_terminate := false }
        [Val.vint 7] 1 (fun _ b => Except.ok b)).trace =
          Events.STARTED :: body ++ [Events.COMPLETED] ∧
       EpochBody body ∧
       (Engine.run { event_handlers := [], should_terminate := false }
          [Val.vint 7] 1 (fun _ b => Except.ok b)).state.epoch =
         body.countP (fun e => decide (e = Events.EPOCH_STARTED))) :=
  C4_event_order { event_handlers := [], should_terminate := false }
    [Val.vint 7] 1 (fun _ b => Except.ok b)
    (by intro en regs h; cases h) (fun st b => ⟨b, rfl⟩)

/-! ### Termination requested from an ITERATION_COMPLETED handler (C5) -/

theorem fire_event_lookup_none {eng : Engine} {st : RState} {ev : Events}
    {eargs : List Val}
    (h : dictLookup eng.event_handlers (.tag ev) = none) :
    fire_event eng st ev eargs =
      (eng, [TraceEntry.fire ev st.iteration st.epoch], none) := by
  simp [fire_event, h]

theorem termAt_fire_IC_stop {k : Nat} {st : RState}
    (h : (st.iteration == k) = true) :
    fire_event (termAtEngine k) st .ITERATION_COMPLETED [] =
      ((termAtEngine k).terminate,
       [TraceEntry.fire .ITERATION_COMPLETED st.iteration st.epoch,
        TraceEntry.call .ITERATION_COMPLETED 1 ([] ++ []) []], none) := by
  have hf : (termAtReg k).fn st ([] ++ (termAtReg k).args) (termAtReg k).kwargs =
      .ok true := by
    simp [termAtReg, h]
  have hl : dictLookup (termAtEngine k).event_handlers
      (.tag .ITERATION_COMPLETED) = some [termAtReg k] := rfl
  simp only [fire_event, hl]
  rw [fireList_cons_ok hf]
  simp [fireList, termAtReg]

/-- A pass that never reaches iteration k: behaves like a benign pass,
processing every batch and leaving the engine untouched. -/
theorem runOnceLoop_termAt_clean {k : Nat} {proc : ProcFn} (hpt : ProcTotal proc) :
    ∀ (bs : List Val) (st : RState), st.iteration + bs.length < k →
      (runOnceLoop proc (termAtEngine k) st bs).1 = termAtEngine k ∧
      (runOnceLoop proc (termAtEngine k) st bs).2.2.2 = none ∧
      (runOnceLoop proc (termAtEngine k) st bs).2.1.iteration =
        st.iteration + bs.length ∧
      (runOnceLoop proc (termAtEngine k) st bs).2.1.epoch = st.epoch ∧
      (runOnceLoop proc (termAtEngine k) st bs).2.1.dataloader = st.dataloader ∧
      countFire .EPOCH_STARTED (runOnceLoop proc (termAtEngine k) st bs).2.2.1 = 0 ∧
      countFire .EPOCH_COMPLETED (runOnceLoop proc (termAtEngine k) st bs).2.2.1 = 0 ∧
      countFire .COMPLETED (runOnceLoop proc (termAtEngine k) st bs).2.2.1 = 0 ∧
      countFire .ITERATION_STARTED
        (runOnceLoop proc (termAtEngine k) st bs).2.2.1 = bs.length
  | [], st, _ => ⟨rfl, rfl, by simp [runOnceLoop], rfl, rfl, rfl, rfl, rfl, rfl⟩
  | b :: bs, st, hlt => by
    obtain ⟨v, hv⟩ := hpt { st with batch := b, iteration := st.iteration + 1 } b
    have hIS := @fire_event_lookup_none (termAtEngine k)
      { st with batch := b, iteration := st.iteration + 1 }
      Events.ITERATION_STARTED [] rfl
    have hIC : fire_event (termAtEngine k)
        { st with batch := b, iteration := st.iteration + 1, output := v }
        .ITERATION_COMPLETED [] =
        (termAtEngine k,
         TraceEntry.fire .ITERATION_COMPLETED (st.iteration + 1) st.epoch ::
           regCalls .ITERATION_COMPLETED []
             (regsAt (termAtEngine k) .ITERATION_COMPLETED), none) := by
      apply fire_event_okFalse
      intro r hr
      have hr2 : r ∈ [termAtReg k] := hr
      rcases List.mem_singleton.mp hr2 with rfl
      have hne : (st.iteration + 1 == k) = false := by
        apply beq_eq_false_iff_ne.mpr
        simp only [List.length_cons] at hlt
        omega
      simp [termAtReg, hne]
    have ih := runOnceLoop_termAt_clean hpt bs
      { st with batch := b, iteration := st.iteration + 1, output := v }
      (by
        show st.iteration + 1 + bs.length < k
        simp only [List.length_cons] at hlt
        omega)
    cases hq : runOnceLoop proc (termAtEngine k)
        { st with batch := b, iteration := st.iteration + 1, output := v } bs with
    | mk eng3 rest3 =>
      obtain ⟨st3, tr3, err3⟩ := rest3
      rw [hq] at ih
      simp only at ih
      obtain ⟨iheng, iherr, ihit, ihep, ihdl, ihc1, ihc2, ihc3, ihc4⟩ := ih
      rw [iheng, iherr] at hq
      have hterm : (termAtEngine k).should_terminate = false := rfl
      simp only [runOnceLoop, hIS, hv, hIC, hterm, Bool.false_eq_true, if_false,
        hq]
      refine ⟨by trivial, by trivial, ?_, ihep, ihdl, ?_, ?_, ?_, ?_⟩
      · rw [ihit]
        simp only [List.length_cons]
        omega
      all_goals
        simp [List.cons_append, List.append_assoc, countFire_cons_fire,
          countFire_append, OnlyCalls_countFire (OnlyCalls_regCalls _ _ _),
          ihc1, ihc2, ihc3, ihc4]

/-- A pass that reaches iteration k: the handler calls terminate there,
the loop breaks after that ITERATION_COMPLETED, with the iteration
counter stopped at k. -/
theorem runOnceLoop_termAt_partial {k : Nat} {proc : ProcFn} (hpt : ProcTotal proc) :
    ∀ (bs : List Val) (st : RState), st.iteration < k →
      k ≤ st.iteration + bs.length →
      (runOnceLoop proc (termAtEngine k) st bs).1 = (termAtEngine k).terminate ∧
      (runOnceLoop proc (termAtEngine k) st bs).2.2.2 = none ∧
      (runOnceLoop proc (termAtEngine k) st bs).2.1.iteration = k ∧
      (runOnceLoop proc (termAtEngine k) st bs).2.1.epoch = st.epoch ∧
      countFire .EPOCH_STARTED (runOnceLoop proc (termAtEngine k) st bs).2.2.1 = 0 ∧
      countFire .EPOCH_COMPLETED (runOnceLoop proc (termAtEngine k) st bs).2.2.1 = 0 ∧
      countFire .COMPLETED (runOnceLoop proc (termAtEngine k) st bs).2.2.1 = 0 ∧
      countFire .ITERATION_STARTED
        (runOnceLoop proc (termAtEngine k) st bs).2.2.1 = k - st.iteration
  | [], st, hlt, hle => by
    simp only [List.length_nil, Nat.add_zero] at hle
    omega
  | b :: bs, st, hlt, hle => by
    obtain ⟨v, hv⟩ := hpt { st with batch := b, iteration := st.iteration + 1 } b
    have hIS := @fire_event_lookup_none (termAtEngine k)
      { st with batch := b, iteration := st.iteration + 1 }
      Events.ITERATION_STARTED [] rfl
    by_cases hk : st.iteration + 1 = k
    · have hIC := @termAt_fire_IC_stop k
        { st with batch := b, iteration := st.iteration + 1, output := v }
        (by
          show (st.iteration + 1 == k) = true
          rw [hk]
          exact beq_self_eq_true k)
      have hterm : ((termAtEngine k).terminate).should_terminate = true := rfl
      simp only [runOnceLoop, hIS, hv, hIC, hterm, if_true]
      refine ⟨by trivial, by trivial, hk, by trivial, ?_, ?_, ?_, ?_⟩
      all_goals simp [countFire_cons_fire]
      all_goals omega
    · have hIC : fire_event (termAtEngine k)
          { st with batch := b, iteration := st.iteration + 1, output := v }
          .ITERATION_COMPLETED [] =
          (termAtEngine k,
           TraceEntry.fire .ITERATION_COMPLETED (st.iteration + 1) st.epoch ::
             regCalls .ITERATION_COMPLETED []
               (regsAt (termAtEngine k) .ITERATION_COMPLETED), none) := by
        apply fire_event_okFalse
        intro r hr
        have hr2 : r ∈ [termAtReg k] := hr
        rcases List.mem_singleton.mp hr2 with rfl
        have hne : (st.iteration + 1 == k) = false :=
          beq_eq_false_iff_ne.mpr hk
        simp [termAtReg, hne]
      have ih := runOnceLoop_termAt_partial hpt bs
        { st with batch := b, iteration := st.iteration + 1, output := v }
        (by show st.iteration + 1 < k; omega)
        (by
          show k ≤ st.iteration + 1 + bs.length
          simp only [List.length_cons] at hle
          omega)
      cases hq : runOnceLoop proc (termAtEngine k)
          { st with batch := b, iteration := st.iteration + 1, output := v } bs with
      | mk eng3 rest3 =>
        obtain ⟨st3, tr3, err3⟩ := rest3
        rw [hq] at ih
        simp only at ih
        obtain ⟨iheng, iherr, ihit, ihep, ihc1, ihc2, ihc3, ihc4⟩ := ih
        rw [iheng, iherr] at hq
        have hterm : (termAtEngine k).should_terminate = false := rfl
        simp only [runOnceLoop, hIS, hv, hIC, hterm, Bool.false_eq_true,
          if_false, hq]
        refine ⟨by trivial, by trivial, ihit, ihep, ?_, ?_, ?_, ?_⟩
        all_goals
          simp [List.cons_append, List.append_assoc, countFire_cons_fire,
            countFire_append, OnlyCalls_countFire (OnlyCalls_regCalls _ _ _),
            ihc1, ihc2, ihc3, ihc4]
        all_goals omega

/-- Epoch loop for the engine whose ITERATION_COMPLETED handler calls
terminate at iteration k: epochs before the one containing k complete
normally, the loop breaks inside that epoch right after iteration k, no
later epoch is started and EPOCH_COMPLETED is not fired for the final
epoch. -/
theorem epochLoop_termAt {k e N : Nat} {data : List Val} {proc : ProcFn}
    (hpt : ProcTotal proc) (he : e ≤ N)
    (hk1 : (e - 1) * data.length < k) (hk2 : k ≤ e * data.length) :
    ∀ (fuel : Nat) (st : RState), st.epoch < e → e ≤ st.epoch + fuel →
      st.iteration = st.epoch * data.length → st.dataloader = data →
      (epochLoop proc N fuel (termAtEngine k) st).1 = (termAtEngine k).terminate ∧
      (epochLoop proc N fuel (termAtEngine k) st).2.2.2 = none ∧
      (epochLoop proc N fuel (termAtEngine k) st).2.1.epoch = e ∧
      (epochLoop proc N fuel (termAtEngine k) st).2.1.iteration = k ∧
      countFire .EPOCH_STARTED
        (epochLoop proc N fuel (termAtEngine k) st).2.2.1 = e - st.epoch ∧
      countFire .EPOCH_COMPLETED
        (epochLoop proc N fuel (termAtEngine k) st).2.2.1 = e - 1 - st.epoch ∧
      countFire .COMPLETED
        (epochLoop proc N fuel (termAtEngine k) st).2.2.1 = 0 ∧
      countFire .ITERATION_STARTED
        (epochLoop proc N fuel (termAtEngine k) st).2.2.1 = k - st.iteration
  | 0, st, hlt, hle, _, _ => by omega
  | fuel + 1, st, hlt, hle, hit, hdl => by
    have hg : (decide (st.epoch < N) && !(termAtEngine k).should_terminate) =
        true := by
      have h1 : st.epoch < N := by omega
      simp [termAtEngine, h1]
    have hES := @fire_event_lookup_none (termAtEngine k)
      { st with epoch := st.epoch + 1 } Events.EPOCH_STARTED [] rfl
    have hdlE : ({ st with epoch := st.epoch + 1 } : RState).dataloader =
        data := hdl
    by_cases hlast : st.epoch + 1 = e
    · have hpart := runOnceLoop_termAt_partial hpt data
        { st with epoch := st.epoch + 1 }
        (by
          show st.iteration < k
          rw [hit]
          have h2 : st.epoch = e - 1 := by omega
          rw [h2]
          exact hk1)
        (by
          show k ≤ st.iteration + data.length
          rw [hit]
          have h2 : e * data.length = st.epoch * data.length + data.length := by
            rw [← hlast, Nat.succ_mul]
          omega)
      cases hq : runOnceLoop proc (termAtEngine k)
          { st with epoch := st.epoch + 1 } data with
      | mk eng2 rest2 =>
        obtain ⟨st2, tr2, err2⟩ := rest2
        rw [hq] at hpart
        simp only at hpart
        obtain ⟨heng2, herr2, hit2, hep2, hc1, hc2, hc3, hc4⟩ := hpart
        rw [heng2, herr2] at hq
        have hro : run_once_on_dataset proc (termAtEngine k)
            { st with epoch := st.epoch + 1 } =
            ((termAtEngine k).terminate, st2, tr2, RunOnceOutcome.timing) := by
          rw [← hdl] at hq
          simp only [run_once_on_dataset, hq]
        have htT : ((termAtEngine k).terminate).should_terminate = true := rfl
        simp only [epochLoop]
        rw [if_pos hg]
        simp only [hES, hro, htT, if_true, List.singleton_append]
        refine ⟨by trivial, by trivial, ?_, hit2, ?_, ?_, ?_, ?_⟩
        · omega
        all_goals simp [countFire_cons_fire, hc1, hc2, hc3, hc4]
        all_goals omega
    · have h2 : st.epoch * data.length + data.length =
          (st.epoch + 1) * data.length := (Nat.succ_mul _ _).symm
      have h3 : (st.epoch + 1) * data.length ≤ (e - 1) * data.length :=
        Nat.mul_le_mul_right _ (by omega)
      have hclean := runOnceLoop_termAt_clean hpt data
        { st with epoch := st.epoch + 1 }
        (by
          show st.iteration + data.length < k
          rw [hit]
          omega)
      cases hq : runOnceLoop proc (termAtEngine k)
          { st with epoch := st.epoch + 1 } data with
      | mk eng2 rest2 =>
        obtain ⟨st2, tr2, err2⟩ := rest2
        rw [hq] at hclean
        simp only at hclean
        obtain ⟨heng2, herr2, hit2, hep2, hdl2, hc1, hc2, hc3, hc4⟩ := hclean
        rw [heng2, herr2] at hq
        have hro : run_once_on_dataset proc (termAtEngine k)
            { st with epoch := st.epoch + 1 } =
            (termAtEngine k, st2, tr2, RunOnceOutcome.timing) := by
          rw [← hdl] at hq
          simp only [run_once_on_dataset, hq]
        have htF : (termAtEngine k).should_terminate = false := rfl
        have hEC := @fire_event_lookup_none (termAtEngine k) st2
          Events.EPOCH_COMPLETED [] rfl
        have ih := epochLoop_termAt hpt he hk1 hk2 fuel st2
          (by omega) (by omega)
          (by
            rw [hit2, hit, hep2, Nat.succ_mul])
          (hdl2.trans hdl)
        cases hrec : epochLoop proc N fuel (termAtEngine k) st2 with
        | mk eng4 rest4 =>
          obtain ⟨st4, tr4, err4⟩ := rest4
          rw [hrec] at ih
          simp only at ih
          obtain ⟨iheng, iherr, ihep, ihit, ihc1, ihc2, ihc3, ihc4⟩ := ih
          simp only [epochLoop]
          rw [if_pos hg]
          simp only [hES, hro, htF, Bool.false_eq_true, if_false, hEC, hrec,
            List.singleton_append, List.cons_append]
          refine ⟨iheng, iherr, ihep, ihit, ?_, ?_, ?_, ?_⟩
          all_goals
            simp [countFire_cons_fire, countFire_append, hc1, hc2, hc3, hc4,
              ihc1, ihc2, ihc3, ihc4]
          all_goals omega

/-- C5: if the ITERATION_COMPLETED handler calls terminate() at iteration
k, and k falls in epoch e of the run (that is, (e-1)*B < k ≤ e*B for a
dataset of B batches), then the run stops there: ITERATION_STARTED is
dispatched exactly k times, so no iteration k+1 occurs in epoch e; the
final state's epoch is e and EPOCH_STARTED is dispatched exactly e times,
so no subsequent epoch is started; EPOCH_COMPLETED is dispatched only e-1
times, so it is not dispatched for epoch e; and COMPLETED is still
dispatched, exactly once, as the last event before run returns its
state. -/
theorem C5_terminate_mid_epoch (data : List Val) (N e k : Nat) (proc : ProcFn)
    (hpt : ProcTotal proc) (heN : e ≤ N)
    (hk1 : (e - 1) * data.length < k) (hk2 : k ≤ e * data.length) :
    (Engine.run (termAtEngine k) data N proc).raised = none ∧
    (Engine.run (termAtEngine k) data N proc).state.iteration = k ∧
    (Engine.run (termAtEngine k) data N proc).state.epoch = e ∧
    countFire .ITERATION_STARTED
      (Engine.run (termAtEngine k) data N proc).trace = k ∧
    countFire .EPOCH_STARTED
      (Engine.run (termAtEngine k) data N proc).trace = e ∧
    countFire .EPOCH_COMPLETED
      (Engine.run (termAtEngine k) data N proc).trace = e - 1 ∧
    countFire .COMPLETED
      (Engine.run (termAtEngine k) data N proc).trace = 1 ∧
    (firedEvents (Engine.run (termAtEngine k) data N proc).trace).getLast? =
      some Events.COMPLETED := by
  have he1 : 1 ≤ e := by
    by_contra h
    have he0 : e = 0 := by omega
    rw [he0] at hk1 hk2
    simp at hk1 hk2
    omega
  have hS := @fire_event_lookup_none (termAtEngine k) (initialState data N)
    Events.STARTED [] rfl
  have hloop := epochLoop_termAt hpt heN hk1 hk2 N (initialState data N)
    (by show (0 : Nat) < e; omega)
    (by show e ≤ 0 + N; omega)
    (by show (0 : Nat) = 0 * data.length; simp)
    rfl
  cases hq : epochLoop proc N N (termAtEngine k) (initialState data N) with
  | mk eng2 rest2 =>
    obtain ⟨st2, tr2, err2⟩ := rest2
    rw [hq] at hloop
    simp only at hloop
    obtain ⟨heng2, herr2, hep2, hit2, hcES, hcEC, hcC, hcIS⟩ := hloop
    rw [heng2, herr2] at hq
    have hC := @fire_event_lookup_none ((termAtEngine k).terminate) st2
      Events.COMPLETED [] rfl
    refine ⟨?_, ?_, ?_, ?_, ?_, ?_, ?_, ?_⟩
    all_goals simp only [Engine.run, hS, hq, hC]
    · exact hit2
    · exact hep2
    · simp [countFire_append, countFire_cons_fire, hcIS, initialState]
    · simp [countFire_append, countFire_cons_fire, hcES, initialState]
    · simp [countFire_append, countFire_cons_fire, hcEC, initialState]
    · simp [countFire_append, countFire_cons_fire, hcC]
    · rw [firedEvents_append]
      rw [show firedEvents
          [TraceEntry.fire Events.COMPLETED st2.iteration st2.epoch] =
          [Events.COMPLETED] from rfl]
      exact List.getLast?_concat _

/-- Witness for C5: three batches per epoch, max_epochs 2, the handler
requests termination at iteration 2 of epoch 1. -/
theorem C5_witness :
    (1 - 1) * ([Val.vint 1, Val.vint 2, Val.vint 3] : List Val).length < 2 ∧
    ((Engine.run (termAtEngine 2) [Val.vint 1, Val.vint 2, Val.vint 3] 2
        (fun _ b => Except.ok b)).raised = none ∧
     (Engine.run (termAtEngine 2) [Val.vint 1, Val.vint 2, Val.vint 3] 2
        (fun _ b => Except.ok b)).state.iteration = 2 ∧
     (Engine.run (termAtEngine 2) [Val.vint 1, Val.vint 2, Val.vint 3] 2
        (fun _ b => Except.ok b)).state.epoch = 1 ∧
     countFire .ITERATION_STARTED
       (Engine.run (termAtEngine 2) [Val.vint 1, Val.vint 2, Val.vint 3] 2
         (fun _ b => Except.ok b)).trace = 2 ∧
     countFire .EPOCH_STARTED
       (Engine.run (termAtEngine 2) [Val.vint 1, Val.vint 2, Val.vint 3] 2
         (fun _ b => Except.ok b)).trace = 1 ∧
     countFire .EPOCH_COMPLETED
       (Engine.run (termAtEngine 2) [Val.vint 1, Val.vint 2, Val.vint 3] 2
         (fun _ b => Except.ok b)).trace = 1 - 1 ∧
     countFire .COMPLETED
       (Engine.run (termAtEngine 2) [Val.vint 1, Val.vint 2, Val.vint 3] 2
         (fun _ b => Except.ok b)).trace = 1 ∧
     (firedEvents (Engine.run (termAtEngine 2)
         [Val.vint 1, Val.vint 2, Val.vint 3] 2
         (fun _ b => Except.ok b)).trace).getLast? = some Events.COMPLETED) :=
  ⟨by decide,
   C5_terminate_mid_epoch [Val.vint 1, Val.vint 2, Val.vint 3] 2 1 2
     (fun _ b => Except.ok b) (fun _ b => ⟨b, rfl⟩)
     (by omega) (by decide) (by decide)⟩

end Ignite
